import Mathlib

/-!
Verification of the Filtered Space-Saving TopK estimator (topk.go).

The Go source is shallowly embedded below.  Go slices become Lean lists
(reads use getD, which agrees with the Go access on every in-range index;
all indices produced by the algorithm are proved in range), the Go map
`map[string]int` becomes an association list with Go map lookup/update/delete
semantics, and Go int becomes Int.  The external dependency
sip13.Sum64Str (a third-party hash library, not part of this repository)
is modelled as an arbitrary function `hash : String -> Nat` giving the
64-bit hash value; every algorithmic claim is settled uniformly in that
parameter, exactly as the code treats the hash as a black box.
The functions of container/heap (Push, Fix with their internal up and down
sift loops) are embedded following the Go standard library source, with an
explicit fuel argument making the loops structurally recursive; the fuel
supplied is proved sufficient, so the embedded functions compute the same
results as the Go loops.
-/

namespace topk

/-- Element is a TopK item (the exported struct of topk.go). -/
structure Element where
  Key : String
  Count : Int
  Error : Int
deriving DecidableEq

/-- The internal element struct of topk.go.  The Go field `Key *string` is a
pointer only to share storage; its value semantics is the string itself. -/
structure element where
  Key : String
  Count : Int
  Error : Int
deriving DecidableEq

/-- Default element used as the getD fallback; never read on in-range
accesses, which are the only accesses the algorithm performs. -/
def nilElt : element := ⟨"", 0, 0⟩

/-- keys.Less of topk.go: min-heap order, count ascending, ties broken
toward the larger Error. -/
def lessE (a b : element) : Prop :=
  a.Count < b.Count ∨ (a.Count = b.Count ∧ b.Error < a.Error)

instance (a b : element) : Decidable (lessE a b) := by
  unfold lessE; exact inferInstance

/-- elementsByCountDescending.Less of topk.go: count descending, ties broken
by key ascending (Go string order = lexicographic, as in Lean). -/
def lessCD (p q : Element) : Prop :=
  q.Count < p.Count ∨ (p.Count = q.Count ∧ p.Key < q.Key)

instance (p q : Element) : Decidable (lessCD p q) := by
  unfold lessCD; exact inferInstance

/-- The non-strict order induced by lessCD: p may appear before q in the
sorted output of Keys. -/
def sortLE (p q : Element) : Prop := ¬ lessCD q p

instance (p q : Element) : Decidable (sortLE p q) := by
  unfold sortLE; exact inferInstance

/-- Lookup in the Go map m (first binding wins; the operations below keep
at most one binding per key, like a Go map). -/
def mlookup : List (String × Nat) → String → Option Nat
  | [], _ => none
  | (k, v) :: rest, x => if k = x then some v else mlookup rest x

/-- Go `delete(m, x)`. -/
def mdel : List (String × Nat) → String → List (String × Nat)
  | [], _ => []
  | (k, v) :: rest, x => if k = x then mdel rest x else (k, v) :: mdel rest x

/-- Go `m[x] = v`. -/
def mset (m : List (String × Nat)) (x : String) (v : Nat) : List (String × Nat) :=
  (x, v) :: mdel m x

/-- The key set of the map. -/
def mkeys (m : List (String × Nat)) : List String := m.map Prod.fst

/-- The keys struct of topk.go: the position index map and the heap slice. -/
structure keys where
  m : List (String × Nat)
  elts : List element

/-- keys.Swap of topk.go: swaps two heap slots and updates both index
entries (in the Go order: first the new slot i key, then the new slot j key). -/
def kSwap (ks : keys) (i j : Nat) : keys :=
  let ei := ks.elts.getD i nilElt
  let ej := ks.elts.getD j nilElt
  { m := mset (mset ks.m ej.Key i) ei.Key j,
    elts := (ks.elts.set i ej).set j ei }

/-- The up loop of container/heap (sift toward the root), with fuel.
Each iteration moves j to its parent (j-1)/2, so fuel j+1 is sufficient. -/
def heapUpF : Nat → keys → Nat → keys
  | 0, ks, _ => ks
  | fuel + 1, ks, j =>
    if j = 0 then ks
    else
      let i := (j - 1) / 2
      if lessE (ks.elts.getD j nilElt) (ks.elts.getD i nilElt) then
        heapUpF fuel (kSwap ks i j) i
      else ks

/-- The down loop of container/heap (sift toward the leaves), with fuel;
returns the final index, as the Go code uses i > i0 to detect movement.
Each iteration moves i to a strict child below n, so fuel n+1 is sufficient. -/
def heapDownAuxF : Nat → keys → Nat → Nat → keys × Nat
  | 0, ks, i, _ => (ks, i)
  | fuel + 1, ks, i, n =>
    let j1 := 2 * i + 1
    if j1 < n then
      let j :=
        if 2 * i + 2 < n ∧
            lessE (ks.elts.getD (2 * i + 2) nilElt) (ks.elts.getD j1 nilElt) then
          2 * i + 2
        else j1
      if lessE (ks.elts.getD j nilElt) (ks.elts.getD i nilElt) then
        heapDownAuxF fuel (kSwap ks i j) j n
      else (ks, i)
    else (ks, i)

/-- heap.Fix of container/heap: sift down from i, and if nothing moved,
sift up from i. -/
def heapFix (ks : keys) (i : Nat) : keys :=
  let r := heapDownAuxF (ks.elts.length + 1) ks i ks.elts.length
  if i < r.2 then r.1 else heapUpF (i + 1) r.1 i

/-- heap.Push of container/heap combined with keys.Push of topk.go:
record the index of the new key, append, then sift up from the last slot. -/
def heapPush (ks : keys) (e : element) : keys :=
  let ks1 : keys := ⟨mset ks.m e.Key ks.elts.length, ks.elts ++ [e]⟩
  heapUpF (ks.elts.length + 1) ks1 ks.elts.length

/-- Stream of topk.go. -/
structure Stream where
  n : Nat
  k : keys
  alphas : List Int

/-- reduce of topk.go: uint32(uint64(uint32(x)) * uint64(n) >> 32), with the
Go unsigned wraparound made explicit. -/
def reduce (x : Nat) (n : Nat) : Nat :=
  (x % 2 ^ 32) * n % 2 ^ 64 / 2 ^ 32 % 2 ^ 32

/-- The Stream built by New for a non-negative capacity. -/
def NewStream (n : Nat) : Stream :=
  ⟨n, ⟨[], []⟩, List.replicate (n * 6) 0⟩

/-- New of topk.go.  The Go function performs no capacity validation; for
negative n the slice allocation make([]int, n*6) panics, modelled as none. -/
def New (n : Int) : Option Stream :=
  if n < 0 then none else some (NewStream n.toNat)

/-- Insert of topk.go, returning the Element together with the new state.
hash stands for the external sip13.Sum64Str (with the fixed zero keys). -/
def Insert (hash : String → Nat) (s : Stream) (x : String) (count : Int) :
    Element × Stream :=
  let xhash := reduce (hash x) s.alphas.length
  match mlookup s.k.m x with
  | some idx =>
    let e0 := s.k.elts.getD idx nilElt
    let e : element := ⟨e0.Key, e0.Count + count, e0.Error⟩
    let k1 := heapFix ⟨s.k.m, s.k.elts.set idx e⟩ idx
    (⟨e.Key, e.Count, e.Error⟩, { s with k := k1 })
  | none =>
    if s.k.elts.length < s.n then
      let e : element := ⟨x, count, 0⟩
      (⟨x, count, 0⟩, { s with k := heapPush s.k e })
    else if s.alphas.getD xhash 0 + count < (s.k.elts.getD 0 nilElt).Count then
      let h := s.alphas.getD xhash 0
      (⟨x, h + count, h⟩, { s with alphas := s.alphas.set xhash (h + count) })
    else
      let minE := s.k.elts.getD 0 nilElt
      let mkhash := reduce (hash minE.Key) s.alphas.length
      let alphas1 := s.alphas.set mkhash minE.Count
      let h := alphas1.getD xhash 0
      let e : element := ⟨x, h + count, h⟩
      let k1 := heapFix ⟨mset (mdel s.k.m minE.Key) x 0, s.k.elts.set 0 e⟩ 0
      (⟨x, h + count, h⟩, { s with k := k1, alphas := alphas1 })

/-- Estimate of topk.go. -/
def Estimate (hash : String → Nat) (s : Stream) (x : String) : Element :=
  let xhash := reduce (hash x) s.alphas.length
  match mlookup s.k.m x with
  | some idx =>
    let e := s.k.elts.getD idx nilElt
    ⟨e.Key, e.Count, e.Error⟩
  | none =>
    let count := s.alphas.getD xhash 0
    ⟨x, count, count⟩

/-- Keys of topk.go: copy the monitored entries, sort by count descending
with ties broken by key ascending, convert.  sort.Sort is modelled by
insertion sort over the same comparator; the Go code sorts a copy, so the
estimator state is untouched, which the pure embedding makes definitional. -/
def Stream.Keys (s : Stream) : List Element :=
  List.insertionSort sortLE (s.k.elts.map fun e => ⟨e.Key, e.Count, e.Error⟩)

/-- Folding a batch of Insert calls (used to speak about call sequences). -/
def run (hash : String → Nat) (s : Stream) (ops : List (String × Int)) : Stream :=
  ops.foldl (fun t p => (Insert hash t p.1 p.2).2) s

/-- The estimator states reachable from New n (n at least 1) by Insert
calls with positive counts, for a fixed hash function. -/
inductive Reachable (hash : String → Nat) (n : Nat) : Stream → Prop where
  | base : 1 ≤ n → Reachable hash n (NewStream n)
  | step : ∀ s x c, Reachable hash n s → 1 ≤ c →
      Reachable hash n (Insert hash s x c).2

/-- The current estimate the structure holds for key x: the monitored count
if monitored, otherwise the error-table cell of x. -/
def est (hash : String → Nat) (s : Stream) (x : String) : Int :=
  match mlookup s.k.m x with
  | some i => (s.k.elts.getD i nilElt).Count
  | none => s.alphas.getD (reduce (hash x) s.alphas.length) 0

/-- The index map and the heap slice describe each other, the map has no
duplicate keys, and its size equals the number of monitored entries. -/
structure ConsistentKeys (ks : keys) : Prop where
  c1 : ∀ k i, mlookup ks.m k = some i →
    i < ks.elts.length ∧ (ks.elts.getD i nilElt).Key = k
  c2 : ∀ i, i < ks.elts.length →
    mlookup ks.m ((ks.elts.getD i nilElt).Key) = some i
  nodup : (mkeys ks.m).Nodup
  mlen : ks.m.length = ks.elts.length

/-- The binary min-heap property for keys.Less. -/
def HeapProp (l : List element) : Prop :=
  ∀ c, 0 < c → c < l.length →
    ¬ lessE (l.getD c nilElt) (l.getD ((c - 1) / 2) nilElt)

/-- The monitored entry the structure associates with key x, if any. -/
def entryOf (ks : keys) (x : String) : Option element :=
  match mlookup ks.m x with
  | some i => some (ks.elts.getD i nilElt)
  | none => none

/-- The full invariant of reachable estimator states. -/
structure WF (n : Nat) (s : Stream) : Prop where
  hn : 1 ≤ n
  hsn : s.n = n
  halen : s.alphas.length = n * 6
  hlen : s.k.elts.length ≤ n
  hcons : ConsistentKeys s.k
  hentries : ∀ e ∈ s.k.elts, 1 ≤ e.Count ∧ 0 ≤ e.Error ∧ e.Error ≤ e.Count
  halphas : ∀ a ∈ s.alphas, 0 ≤ a
  hheap : HeapProp s.k.elts
  hfree : s.k.elts.length < n → ∀ a ∈ s.alphas, a = 0
  hfull : s.k.elts.length = n →
    ∀ a ∈ s.alphas, a ≤ (s.k.elts.getD 0 nilElt).Count

/-- A concrete hash function (all keys collide on cell 0), used to build
concrete executions; the algorithm treats the hash as a black box, so any
function of this type instantiates the model. -/
def hash0 : String → Nat := fun _ => 0

/-! Utility lemmas about list reads and writes. -/

theorem getD_set_self {α : Type} (l : List α) (i : Nat) (a d : α)
    (h : i < l.length) : (l.set i a).getD i d = a := by
  induction l generalizing i with
  | nil => simp at h
  | cons b t ih =>
    cases i with
    | zero => rfl
    | succ i => simpa using ih i (by simpa using h)

theorem getD_set_ne {α : Type} (l : List α) (i j : Nat) (a d : α)
    (h : i ≠ j) : (l.set i a).getD j d = l.getD j d := by
  induction l generalizing i j with
  | nil => rfl
  | cons b t ih =>
    cases i with
    | zero =>
      cases j with
      | zero => exact absurd rfl h
      | succ j => rfl
    | succ i =>
      cases j with
      | zero => rfl
      | succ j => simpa using ih i j (by omega)

theorem getD_default {α : Type} (l : List α) (i : Nat) (d : α)
    (h : l.length ≤ i) : l.getD i d = d := by
  induction l generalizing i with
  | nil => cases i <;> rfl
  | cons b t ih =>
    cases i with
    | zero => simp at h
    | succ i => simpa using ih i (by simpa using h)

theorem getD_mem {α : Type} (l : List α) (i : Nat) (d : α)
    (h : i < l.length) : l.getD i d ∈ l := by
  induction l generalizing i with
  | nil => simp at h
  | cons b t ih =>
    cases i with
    | zero => simp
    | succ i => exact List.mem_cons_of_mem _ (ih i (by simpa using h))

theorem mem_of_mem_set {α : Type} {l : List α} {i : Nat} {a b : α}
    (h : b ∈ l.set i a) : b = a ∨ b ∈ l := by
  induction l generalizing i with
  | nil => simp at h
  | cons c t ih =>
    cases i with
    | zero =>
      rcases List.mem_cons.1 h with h1 | h1
      · exact Or.inl h1
      · exact Or.inr (List.mem_cons_of_mem _ h1)
    | succ i =>
      rcases List.mem_cons.1 h with h1 | h1
      · exact Or.inr (h1 ▸ List.mem_cons_self _ _)
      · rcases ih h1 with h2 | h2
        · exact Or.inl h2
        · exact Or.inr (List.mem_cons_of_mem _ h2)

theorem getD_append_left {α : Type} (l : List α) (e : α) (i : Nat) (d : α)
    (h : i < l.length) : (l ++ [e]).getD i d = l.getD i d := by
  induction l generalizing i with
  | nil => simp at h
  | cons b t ih =>
    cases i with
    | zero => rfl
    | succ i => simpa using ih i (by simpa using h)

theorem getD_append_len {α : Type} (l : List α) (e : α) (d : α) :
    (l ++ [e]).getD l.length d = e := by
  induction l with
  | nil => rfl
  | cons b t ih => simpa using ih

theorem mem_iff_getD {α : Type} {l : List α} {b : α} (d : α) (h : b ∈ l) :
    ∃ i, i < l.length ∧ l.getD i d = b := by
  induction l with
  | nil => simp at h
  | cons c t ih =>
    rcases List.mem_cons.1 h with h1 | h1
    · exact ⟨0, by simp, h1.symm⟩
    · rcases ih h1 with ⟨i, hi, hg⟩
      exact ⟨i + 1, by simpa using hi, by simpa using hg⟩

/-! Lemmas about the Go map model. -/

theorem mlookup_mdel : ∀ (m : List (String × Nat)) (x y : String),
    mlookup (mdel m x) y = if y = x then none else mlookup m y
  | [], _, _ => by simp [mdel, mlookup]
  | (k, v) :: rest, x, y => by
    simp only [mdel, mlookup]
    by_cases hk : k = x
    · rw [if_pos hk, mlookup_mdel rest x y]
      by_cases hy : y = x
      · simp [hy]
      · have hky : ¬ (k = y) := fun h => hy (h ▸ hk)
        simp [hy, hky]
    · rw [if_neg hk]
      simp only [mlookup]
      by_cases hky : k = y
      · have hyx : ¬ (y = x) := fun h => hk (hky.trans h)
        simp [hky, hyx]
      · rw [if_neg hky, mlookup_mdel rest x y]
        simp [hky]

theorem mlookup_mset (m : List (String × Nat)) (x : String) (v : Nat) (y : String) :
    mlookup (mset m x v) y = if y = x then some v else mlookup m y := by
  unfold mset
  by_cases hy : y = x
  · simp [mlookup, hy]
  · have hxy : ¬ (x = y) := fun h => hy h.symm
    simp only [mlookup, if_neg hxy, mlookup_mdel m x y, if_neg hy]

theorem mkeys_mdel_sublist : ∀ (m : List (String × Nat)) (x : String),
    (mkeys (mdel m x)).Sublist (mkeys m)
  | [], _ => by simp [mdel, mkeys]
  | (k, v) :: rest, x => by
    by_cases hk : k = x
    · rw [show mdel ((k, v) :: rest) x = mdel rest x from by simp [mdel, hk]]
      exact (mkeys_mdel_sublist rest x).cons k
    · rw [show mdel ((k, v) :: rest) x = (k, v) :: mdel rest x from by
        simp [mdel, hk]]
      exact (mkeys_mdel_sublist rest x).cons₂ k

theorem not_mem_mkeys_mdel (m : List (String × Nat)) (x : String) :
    x ∉ mkeys (mdel m x) := by
  induction m with
  | nil => simp [mdel, mkeys]
  | cons p rest ih =>
    obtain ⟨k, v⟩ := p
    by_cases hk : k = x
    · simpa [mdel, hk] using ih
    · simp only [mdel, if_neg hk, mkeys, List.map_cons, List.mem_cons]
      rintro (h | h)
      · exact hk h.symm
      · exact ih h

theorem nodup_mdel {m : List (String × Nat)} (x : String)
    (h : (mkeys m).Nodup) : (mkeys (mdel m x)).Nodup :=
  h.sublist (mkeys_mdel_sublist m x)

theorem nodup_mset {m : List (String × Nat)} (x : String) (v : Nat)
    (h : (mkeys m).Nodup) : (mkeys (mset m x v)).Nodup := by
  unfold mset
  simp only [mkeys, List.map_cons, List.nodup_cons]
  exact ⟨not_mem_mkeys_mdel m x, nodup_mdel x h⟩

theorem mlookup_eq_none_iff (m : List (String × Nat)) (x : String) :
    mlookup m x = none ↔ x ∉ mkeys m := by
  induction m with
  | nil => simp [mlookup, mkeys]
  | cons p rest ih =>
    obtain ⟨k, v⟩ := p
    by_cases hk : k = x
    · simp [mlookup, hk, mkeys]
    · simp only [mlookup, if_neg hk, mkeys, List.map_cons, List.mem_cons, ih]
      constructor
      · rintro h (h1 | h1)
        · exact hk h1.symm
        · exact h h1
      · intro h h1
        exact h (Or.inr h1)

theorem mdel_of_not_mem : ∀ (m : List (String × Nat)) (x : String),
    x ∉ mkeys m → mdel m x = m
  | [], _, _ => rfl
  | (k, v) :: rest, x, h => by
    simp only [mkeys, List.map_cons, List.mem_cons, not_or] at h
    have hk : ¬ (k = x) := fun hh => h.1 hh.symm
    rw [mdel, if_neg hk, mdel_of_not_mem rest x (by simpa [mkeys] using h.2)]

theorem length_mdel_mem {m : List (String × Nat)} {x : String}
    (hnd : (mkeys m).Nodup) (hm : x ∈ mkeys m) :
    (mdel m x).length + 1 = m.length := by
  induction m with
  | nil => simp [mkeys] at hm
  | cons p rest ih =>
    obtain ⟨k, v⟩ := p
    simp only [mkeys, List.map_cons, List.nodup_cons] at hnd
    by_cases hk : k = x
    · subst hk
      rw [show mdel ((k, v) :: rest) k = mdel rest k from by simp [mdel]]
      rw [mdel_of_not_mem rest k (by simpa [mkeys] using hnd.1)]
      simp
    · simp only [mkeys, List.map_cons, List.mem_cons] at hm
      rcases hm with hm | hm
      · exact absurd hm.symm hk
      · rw [show mdel ((k, v) :: rest) x = (k, v) :: mdel rest x from by
          simp [mdel, hk]]
        simp only [List.length_cons]
        rw [← ih (by simpa [mkeys] using hnd.2) hm]

theorem length_mset_present {m : List (String × Nat)} {x : String} (v : Nat)
    (hnd : (mkeys m).Nodup) (hm : x ∈ mkeys m) :
    (mset m x v).length = m.length := by
  unfold mset
  simp only [List.length_cons]
  exact length_mdel_mem hnd hm

theorem length_mset_absent {m : List (String × Nat)} {x : String} (v : Nat)
    (hm : x ∉ mkeys m) : (mset m x v).length = m.length + 1 := by
  unfold mset
  simp [mdel_of_not_mem m x hm]

/-! Order facts for the heap comparator. -/

theorem lessE_asymm {a b : element} (h : lessE a b) : ¬ lessE b a := by
  unfold lessE at *; omega

theorem lessE_trans {a b c : element} (h1 : lessE a b) (h2 : lessE b c) :
    lessE a c := by
  unfold lessE at *; omega

theorem lessE_negtrans {a b c : element} (h1 : ¬ lessE a b) (h2 : ¬ lessE b c) :
    ¬ lessE a c := by
  unfold lessE at *; omega

theorem lessE_irrefl (a : element) : ¬ lessE a a := by
  unfold lessE; omega

theorem count_le_of_not_lessE {a b : element} (h : ¬ lessE a b) :
    b.Count ≤ a.Count := by
  unfold lessE at h; omega

theorem parent_lt {c : Nat} (h : 0 < c) : (c - 1) / 2 < c := by omega

theorem parent_eq_iff {c p : Nat} (h : 0 < c) :
    (c - 1) / 2 = p ↔ c = 2 * p + 1 ∨ c = 2 * p + 2 := by omega

/-! The swap operation: effect on slots, index map, and consistency. -/

theorem mem_mkeys_of_mlookup {m : List (String × Nat)} {k : String} {i : Nat}
    (h : mlookup m k = some i) : k ∈ mkeys m := by
  by_contra hc
  rw [(mlookup_eq_none_iff m k).2 hc] at h
  cases h

theorem kSwap_length (ks : keys) (i j : Nat) :
    (kSwap ks i j).elts.length = ks.elts.length := by
  simp [kSwap]

theorem kSwap_getD_fst (ks : keys) {i j : Nat} (hi : i < ks.elts.length)
    (hij : i ≠ j) :
    (kSwap ks i j).elts.getD i nilElt = ks.elts.getD j nilElt := by
  unfold kSwap
  rw [getD_set_ne _ _ _ _ _ (fun h => hij h.symm), getD_set_self _ _ _ _ hi]

theorem kSwap_getD_snd (ks : keys) {i j : Nat} (hj : j < ks.elts.length) :
    (kSwap ks i j).elts.getD j nilElt = ks.elts.getD i nilElt := by
  unfold kSwap
  rw [getD_set_self _ _ _ _ (by simpa using hj)]

theorem kSwap_getD_other (ks : keys) {i j c : Nat} (h1 : c ≠ i) (h2 : c ≠ j) :
    (kSwap ks i j).elts.getD c nilElt = ks.elts.getD c nilElt := by
  unfold kSwap
  rw [getD_set_ne _ _ _ _ _ (fun h => h2 h.symm),
    getD_set_ne _ _ _ _ _ (fun h => h1 h.symm)]

theorem kSwap_mem (ks : keys) {i j : Nat} (hi : i < ks.elts.length)
    (hj : j < ks.elts.length) {e : element}
    (h : e ∈ (kSwap ks i j).elts) : e ∈ ks.elts := by
  unfold kSwap at h
  rcases mem_of_mem_set h with h1 | h1
  · exact h1 ▸ getD_mem _ _ _ hi
  · rcases mem_of_mem_set h1 with h2 | h2
    · exact h2 ▸ getD_mem _ _ _ hj
    · exact h2

theorem cons_key_inj {ks : keys} (hc : ConsistentKeys ks) {p q : Nat}
    (hp : p < ks.elts.length) (hq : q < ks.elts.length)
    (h : (ks.elts.getD p nilElt).Key = (ks.elts.getD q nilElt).Key) : p = q := by
  have h1 := hc.c2 p hp
  have h2 := hc.c2 q hq
  rw [h] at h1
  rw [h1] at h2
  exact Option.some_inj.1 h2

theorem kSwap_keys_ne {ks : keys} (hc : ConsistentKeys ks) {i j : Nat}
    (hi : i < ks.elts.length) (hj : j < ks.elts.length) (hij : i ≠ j) :
    (ks.elts.getD i nilElt).Key ≠ (ks.elts.getD j nilElt).Key :=
  fun h => hij (cons_key_inj hc hi hj h)

theorem kSwap_mlookup {ks : keys} (hc : ConsistentKeys ks) {i j : Nat}
    (hi : i < ks.elts.length) (hj : j < ks.elts.length) (hij : i ≠ j)
    (k : String) :
    mlookup (kSwap ks i j).m k =
      if k = (ks.elts.getD i nilElt).Key then some j
      else if k = (ks.elts.getD j nilElt).Key then some i
      else mlookup ks.m k := by
  unfold kSwap
  rw [mlookup_mset, mlookup_mset]

theorem kSwap_consistent {ks : keys} (hc : ConsistentKeys ks) {i j : Nat}
    (hi : i < ks.elts.length) (hj : j < ks.elts.length) (hij : i ≠ j) :
    ConsistentKeys (kSwap ks i j) := by
  have hkne := kSwap_keys_ne hc hi hj hij
  have hlen := kSwap_length ks i j
  refine ⟨?_, ?_, ?_, ?_⟩
  · intro k p hp
    rw [kSwap_mlookup hc hi hj hij] at hp
    by_cases h1 : k = (ks.elts.getD i nilElt).Key
    · rw [if_pos h1] at hp
      cases hp
      refine ⟨by omega, ?_⟩
      rw [kSwap_getD_snd ks hj, h1]
    · rw [if_neg h1] at hp
      by_cases h2 : k = (ks.elts.getD j nilElt).Key
      · rw [if_pos h2] at hp
        cases hp
        refine ⟨by omega, ?_⟩
        rw [kSwap_getD_fst ks hi hij, h2]
      · rw [if_neg h2] at hp
        obtain ⟨hp1, hp2⟩ := hc.c1 k p hp
        have hpi : p ≠ i := fun h => h1 (by rw [← hp2, h])
        have hpj : p ≠ j := fun h => h2 (by rw [← hp2, h])
        exact ⟨by omega, by rw [kSwap_getD_other ks hpi hpj, hp2]⟩
  · intro p hp
    rw [hlen] at hp
    rw [kSwap_mlookup hc hi hj hij]
    by_cases hpi : p = i
    · subst hpi
      rw [kSwap_getD_fst ks hi hij, if_neg (fun h => hkne h.symm), if_pos rfl]
    · by_cases hpj : p = j
      · subst hpj
        rw [kSwap_getD_snd ks hj, if_pos rfl]
      · rw [kSwap_getD_other ks hpi hpj]
        have h1 : (ks.elts.getD p nilElt).Key ≠ (ks.elts.getD i nilElt).Key :=
          fun h => hpi (cons_key_inj hc hp hi h)
        have h2 : (ks.elts.getD p nilElt).Key ≠ (ks.elts.getD j nilElt).Key :=
          fun h => hpj (cons_key_inj hc hp hj h)
        rw [if_neg h1, if_neg h2]
        exact hc.c2 p hp
  · unfold kSwap
    exact nodup_mset _ _ (nodup_mset _ _ hc.nodup)
  · unfold kSwap
    have m1 : mlookup ks.m ((ks.elts.getD j nilElt).Key) = some j := hc.c2 j hj
    have m2 : mlookup (mset ks.m ((ks.elts.getD j nilElt).Key) i)
        ((ks.elts.getD i nilElt).Key) = some i := by
      rw [mlookup_mset, if_neg hkne]
      exact hc.c2 i hi
    rw [length_mset_present _ (nodup_mset _ _ hc.nodup) (mem_mkeys_of_mlookup m2),
      length_mset_present _ hc.nodup (mem_mkeys_of_mlookup m1)]
    simpa using hc.mlen

theorem entryOf_eq (ks : keys) (k : String) :
    entryOf ks k = (mlookup ks.m k).map (fun i => ks.elts.getD i nilElt) := by
  unfold entryOf
  cases mlookup ks.m k <;> rfl

theorem kSwap_entryOf {ks : keys} (hc : ConsistentKeys ks) {i j : Nat}
    (hi : i < ks.elts.length) (hj : j < ks.elts.length) (hij : i ≠ j)
    (k : String) : entryOf (kSwap ks i j) k = entryOf ks k := by
  rw [entryOf_eq, entryOf_eq, kSwap_mlookup hc hi hj hij]
  by_cases h1 : k = (ks.elts.getD i nilElt).Key
  · rw [if_pos h1, h1, hc.c2 i hi]
    simp only [Option.map_some']
    rw [kSwap_getD_snd ks hj]
  · rw [if_neg h1]
    by_cases h2 : k = (ks.elts.getD j nilElt).Key
    · rw [if_pos h2, h2, hc.c2 j hj]
      simp only [Option.map_some']
      rw [kSwap_getD_fst ks hi hij]
    · rw [if_neg h2]
      cases hm : mlookup ks.m k with
      | none => rfl
      | some p =>
        obtain ⟨hp1, hp2⟩ := hc.c1 k p hm
        have hpi : p ≠ i := fun h => h1 (by rw [← hp2, h])
        have hpj : p ≠ j := fun h => h2 (by rw [← hp2, h])
        simp only [Option.map_some']
        rw [kSwap_getD_other ks hpi hpj]

/-! The sift-up loop: preservation of structure and heap restoration. -/

theorem heapUpF_pres : ∀ (fuel : Nat) (ks : keys) (j : Nat), j < fuel →
    j < ks.elts.length → ConsistentKeys ks →
    ConsistentKeys (heapUpF fuel ks j) ∧
    (heapUpF fuel ks j).elts.length = ks.elts.length ∧
    (∀ k, entryOf (heapUpF fuel ks j) k = entryOf ks k) ∧
    (∀ e, e ∈ (heapUpF fuel ks j).elts → e ∈ ks.elts)
  | 0, _, j, hf, _, _ => absurd hf (by omega)
  | fuel + 1, ks, j, hf, hj, hc => by
    simp only [heapUpF]
    by_cases h0 : j = 0
    · rw [if_pos h0]
      exact ⟨hc, rfl, fun _ => rfl, fun _ he => he⟩
    · rw [if_neg h0]
      by_cases hless : lessE (ks.elts.getD j nilElt)
          (ks.elts.getD ((j - 1) / 2) nilElt)
      · rw [if_pos hless]
        have hij : (j - 1) / 2 ≠ j := by omega
        have hi : (j - 1) / 2 < ks.elts.length := by
          have := parent_lt (show 0 < j by omega)
          omega
        have hrec := heapUpF_pres fuel (kSwap ks ((j - 1) / 2) j) ((j - 1) / 2)
          (by omega) (by rw [kSwap_length]; omega)
          (kSwap_consistent hc hi hj hij)
        refine ⟨hrec.1, ?_, ?_, ?_⟩
        · rw [hrec.2.1, kSwap_length]
        · intro k
          rw [hrec.2.2.1 k, kSwap_entryOf hc hi hj hij]
        · intro e he
          exact kSwap_mem ks hi hj (hrec.2.2.2 e he)
      · rw [if_neg hless]
        exact ⟨hc, rfl, fun _ => rfl, fun _ he => he⟩

theorem heapUpF_heapProp : ∀ (fuel : Nat) (ks : keys) (j : Nat), j < fuel →
    j < ks.elts.length →
    (∀ c, 0 < c → c < ks.elts.length → c ≠ j →
      ¬ lessE (ks.elts.getD c nilElt) (ks.elts.getD ((c - 1) / 2) nilElt)) →
    (∀ c, 0 < c → c < ks.elts.length → (c - 1) / 2 = j → 0 < j →
      ¬ lessE (ks.elts.getD c nilElt) (ks.elts.getD ((j - 1) / 2) nilElt)) →
    HeapProp (heapUpF fuel ks j).elts
  | 0, _, j, hf, _, _, _ => absurd hf (by omega)
  | fuel + 1, ks, j, hf, hj, hA, hB => by
    simp only [heapUpF]
    by_cases h0 : j = 0
    · rw [if_pos h0]
      intro c hc0 hclen
      exact hA c hc0 hclen (by omega)
    · rw [if_neg h0]
      by_cases hless : lessE (ks.elts.getD j nilElt)
          (ks.elts.getD ((j - 1) / 2) nilElt)
      · rw [if_pos hless]
        have hj0 : 0 < j := by omega
        have hpl : (j - 1) / 2 < j := parent_lt hj0
        have hij : (j - 1) / 2 ≠ j := by omega
        have hi : (j - 1) / 2 < ks.elts.length := by omega
        refine heapUpF_heapProp fuel (kSwap ks ((j - 1) / 2) j) ((j - 1) / 2)
          (by omega) (by rw [kSwap_length]; omega) ?_ ?_
        · -- heap property everywhere except at the new position (j-1)/2
          intro c hc0 hclen hcne
          rw [kSwap_length] at hclen
          by_cases hcj : c = j
          · rw [hcj, kSwap_getD_snd ks hj, kSwap_getD_fst ks hi hij]
            exact lessE_asymm hless
          · have hci : c ≠ (j - 1) / 2 := hcne
            rw [kSwap_getD_other ks hci hcj]
            by_cases hpi : (c - 1) / 2 = (j - 1) / 2
            · -- c is the sibling of j below the parent
              rw [hpi, kSwap_getD_fst ks hi hij]
              intro hcl
              have h1 := lessE_trans hcl hless
              have h2 := hA c hc0 hclen hcj
              rw [hpi] at h2
              exact h2 h1
            · by_cases hpj : (c - 1) / 2 = j
              · rw [hpj, kSwap_getD_snd ks hj]
                exact hB c hc0 hclen hpj hj0
              · rw [kSwap_getD_other ks hpi hpj]
                exact hA c hc0 hclen hcj
        · -- children of the new position still dominate its parent
          intro c hc0 hclen hpar hip
          rw [kSwap_length] at hclen
          have hppl : ((j - 1) / 2 - 1) / 2 < (j - 1) / 2 := parent_lt hip
          have hp1 : ((j - 1) / 2 - 1) / 2 ≠ (j - 1) / 2 := by omega
          have hp2 : ((j - 1) / 2 - 1) / 2 ≠ j := by omega
          rw [kSwap_getD_other ks hp1 hp2]
          by_cases hcj : c = j
          · rw [hcj, kSwap_getD_snd ks hj]
            exact hA ((j - 1) / 2) hip hi hij
          · have hci : c ≠ (j - 1) / 2 := by omega
            rw [kSwap_getD_other ks hci hcj]
            have h1 := hA c hc0 hclen hcj
            rw [hpar] at h1
            exact lessE_negtrans h1 (hA ((j - 1) / 2) hip hi hij)
      · rw [if_neg hless]
        intro c hc0 hclen
        by_cases hcj : c = j
        · rw [hcj]
          exact hless
        · exact hA c hc0 hclen hcj

theorem heapUpF_noop : ∀ (fuel : Nat) (ks : keys) (j : Nat),
    j < ks.elts.length → HeapProp ks.elts → heapUpF fuel ks j = ks
  | 0, _, _, _, _ => rfl
  | fuel + 1, ks, j, hj, hH => by
    simp only [heapUpF]
    by_cases h0 : j = 0
    · rw [if_pos h0]
    · rw [if_neg h0, if_neg (hH j (by omega) hj)]

/-! The sift-down loop: preservation of structure and heap restoration. -/

theorem heapDownAuxF_pres : ∀ (fuel : Nat) (ks : keys) (i n : Nat),
    n = ks.elts.length → ConsistentKeys ks →
    ConsistentKeys (heapDownAuxF fuel ks i n).1 ∧
    (heapDownAuxF fuel ks i n).1.elts.length = ks.elts.length ∧
    (∀ k, entryOf (heapDownAuxF fuel ks i n).1 k = entryOf ks k) ∧
    (∀ e, e ∈ (heapDownAuxF fuel ks i n).1.elts → e ∈ ks.elts)
  | 0, _, _, _, _, hc => ⟨hc, rfl, fun _ => rfl, fun _ he => he⟩
  | fuel + 1, ks, i, n, hn, hc => by
    simp only [heapDownAuxF]
    by_cases hj1 : 2 * i + 1 < n
    · rw [if_pos hj1]
      by_cases hch : 2 * i + 2 < n ∧ lessE (ks.elts.getD (2 * i + 2) nilElt)
          (ks.elts.getD (2 * i + 1) nilElt)
      · rw [if_pos hch]
        by_cases hless : lessE (ks.elts.getD (2 * i + 2) nilElt)
            (ks.elts.getD i nilElt)
        · rw [if_pos hless]
          have hi : i < ks.elts.length := by omega
          have hjn : 2 * i + 2 < ks.elts.length := by
            have := hch.1
            omega
          have hij : i ≠ 2 * i + 2 := by omega
          have hrec := heapDownAuxF_pres fuel (kSwap ks i (2 * i + 2))
            (2 * i + 2) n (by rw [kSwap_length]; exact hn)
            (kSwap_consistent hc hi hjn hij)
          refine ⟨hrec.1, ?_, ?_, ?_⟩
          · rw [hrec.2.1, kSwap_length]
          · intro k
            rw [hrec.2.2.1 k, kSwap_entryOf hc hi hjn hij]
          · intro e he
            exact kSwap_mem ks hi hjn (hrec.2.2.2 e he)
        · rw [if_neg hless]
          exact ⟨hc, rfl, fun _ => rfl, fun _ he => he⟩
      · rw [if_neg hch]
        by_cases hless : lessE (ks.elts.getD (2 * i + 1) nilElt)
            (ks.elts.getD i nilElt)
        · rw [if_pos hless]
          have hi : i < ks.elts.length := by omega
          have hjn : 2 * i + 1 < ks.elts.length := by omega
          have hij : i ≠ 2 * i + 1 := by omega
          have hrec := heapDownAuxF_pres fuel (kSwap ks i (2 * i + 1))
            (2 * i + 1) n (by rw [kSwap_length]; exact hn)
            (kSwap_consistent hc hi hjn hij)
          refine ⟨hrec.1, ?_, ?_, ?_⟩
          · rw [hrec.2.1, kSwap_length]
          · intro k
            rw [hrec.2.2.1 k, kSwap_entryOf hc hi hjn hij]
          · intro e he
            exact kSwap_mem ks hi hjn (hrec.2.2.2 e he)
        · rw [if_neg hless]
          exact ⟨hc, rfl, fun _ => rfl, fun _ he => he⟩
    · rw [if_neg hj1]
      exact ⟨hc, rfl, fun _ => rfl, fun _ he => he⟩

theorem heapDownAuxF_ge : ∀ (fuel : Nat) (ks : keys) (i n : Nat),
    i ≤ (heapDownAuxF fuel ks i n).2 ∧
    ((heapDownAuxF fuel ks i n).2 = i → (heapDownAuxF fuel ks i n).1 = ks)
  | 0, _, i, _ => ⟨le_refl i, fun _ => rfl⟩
  | fuel + 1, ks, i, n => by
    simp only [heapDownAuxF]
    by_cases hj1 : 2 * i + 1 < n
    · rw [if_pos hj1]
      by_cases hch : 2 * i + 2 < n ∧ lessE (ks.elts.getD (2 * i + 2) nilElt)
          (ks.elts.getD (2 * i + 1) nilElt)
      · rw [if_pos hch]
        by_cases hless : lessE (ks.elts.getD (2 * i + 2) nilElt)
            (ks.elts.getD i nilElt)
        · rw [if_pos hless]
          have hrec := heapDownAuxF_ge fuel (kSwap ks i (2 * i + 2)) (2 * i + 2) n
          exact ⟨by omega, fun h => by omega⟩
        · rw [if_neg hless]
          exact ⟨le_refl i, fun _ => rfl⟩
      · rw [if_neg hch]
        by_cases hless : lessE (ks.elts.getD (2 * i + 1) nilElt)
            (ks.elts.getD i nilElt)
        · rw [if_pos hless]
          have hrec := heapDownAuxF_ge fuel (kSwap ks i (2 * i + 1)) (2 * i + 1) n
          exact ⟨by omega, fun h => by omega⟩
        · rw [if_neg hless]
          exact ⟨le_refl i, fun _ => rfl⟩
    · rw [if_neg hj1]
      exact ⟨le_refl i, fun _ => rfl⟩

theorem down_stop_heapProp {ks : keys} {i n j : Nat}
    (hn : n = ks.elts.length)
    (hA : ∀ c, 0 < c → c < ks.elts.length → (c - 1) / 2 ≠ i →
      ¬ lessE (ks.elts.getD c nilElt) (ks.elts.getD ((c - 1) / 2) nilElt))
    (hsib : ∀ c, c < n → c ≠ j → (c - 1) / 2 = i → 0 < c →
      ¬ lessE (ks.elts.getD c nilElt) (ks.elts.getD j nilElt))
    (hstop : ¬ lessE (ks.elts.getD j nilElt) (ks.elts.getD i nilElt)) :
    HeapProp ks.elts := by
  intro c hc0 hclen
  by_cases hpar : (c - 1) / 2 = i
  · rw [hpar]
    by_cases hcj : c = j
    · rw [hcj]
      exact hstop
    · exact lessE_negtrans (hsib c (by omega) hcj hpar hc0) hstop
  · exact hA c hc0 hclen hpar

theorem down_swap_invA {ks : keys} {i n j : Nat}
    (hn : n = ks.elts.length) (hj1 : 2 * i + 1 < n)
    (hjc : j = 2 * i + 1 ∨ j = 2 * i + 2) (hjn : j < n)
    (hA : ∀ c, 0 < c → c < ks.elts.length → (c - 1) / 2 ≠ i →
      ¬ lessE (ks.elts.getD c nilElt) (ks.elts.getD ((c - 1) / 2) nilElt))
    (hB : ∀ c, c < ks.elts.length → (c - 1) / 2 = i → 0 < i →
      ¬ lessE (ks.elts.getD c nilElt) (ks.elts.getD ((i - 1) / 2) nilElt))
    (hsib : ∀ c, c < n → c ≠ j → (c - 1) / 2 = i → 0 < c →
      ¬ lessE (ks.elts.getD c nilElt) (ks.elts.getD j nilElt))
    (hless : lessE (ks.elts.getD j nilElt) (ks.elts.getD i nilElt)) :
    ∀ c, 0 < c → c < (kSwap ks i j).elts.length → (c - 1) / 2 ≠ j →
      ¬ lessE ((kSwap ks i j).elts.getD c nilElt)
        ((kSwap ks i j).elts.getD ((c - 1) / 2) nilElt) := by
  have hi : i < ks.elts.length := by omega
  have hjn2 : j < ks.elts.length := by omega
  have hij : i ≠ j := by omega
  intro c hc0 hclen hpar
  rw [kSwap_length] at hclen
  by_cases hci : c = i
  · have hi0 : 0 < i := by omega
    have hpi1 : (i - 1) / 2 ≠ i := by omega
    have hpi2 : (i - 1) / 2 ≠ j := by omega
    rw [hci, kSwap_getD_fst ks hi hij, kSwap_getD_other ks hpi1 hpi2]
    exact hB j hjn2 (by omega) hi0
  · by_cases hcj : c = j
    · rw [hcj, kSwap_getD_snd ks hjn2,
        show (j - 1) / 2 = i from by omega, kSwap_getD_fst ks hi hij]
      exact lessE_asymm hless
    · rw [kSwap_getD_other ks hci hcj]
      by_cases hpi : (c - 1) / 2 = i
      · rw [hpi, kSwap_getD_fst ks hi hij]
        exact hsib c (by omega) hcj hpi hc0
      · rw [kSwap_getD_other ks hpi hpar]
        exact hA c hc0 hclen hpi

theorem down_swap_invB {ks : keys} {i n j : Nat}
    (hn : n = ks.elts.length) (hj1 : 2 * i + 1 < n)
    (hjc : j = 2 * i + 1 ∨ j = 2 * i + 2) (hjn : j < n)
    (hA : ∀ c, 0 < c → c < ks.elts.length → (c - 1) / 2 ≠ i →
      ¬ lessE (ks.elts.getD c nilElt) (ks.elts.getD ((c - 1) / 2) nilElt)) :
    ∀ c, c < (kSwap ks i j).elts.length → (c - 1) / 2 = j → 0 < j →
      ¬ lessE ((kSwap ks i j).elts.getD c nilElt)
        ((kSwap ks i j).elts.getD ((j - 1) / 2) nilElt) := by
  have hi : i < ks.elts.length := by omega
  have hjn2 : j < ks.elts.length := by omega
  have hij : i ≠ j := by omega
  intro c hclen hpar hj0
  rw [kSwap_length] at hclen
  have hc0 : 0 < c := by omega
  have hcj : c ≠ j := by omega
  have hci : c ≠ i := by omega
  have hpji : (j - 1) / 2 = i := by omega
  rw [kSwap_getD_other ks hci hcj, hpji, kSwap_getD_fst ks hi hij]
  have h1 := hA c hc0 hclen (by omega)
  rw [hpar] at h1
  exact h1

theorem heapDownAuxF_heapProp : ∀ (fuel : Nat) (ks : keys) (i n : Nat),
    n = ks.elts.length → n ≤ fuel + i →
    (∀ c, 0 < c → c < ks.elts.length → (c - 1) / 2 ≠ i →
      ¬ lessE (ks.elts.getD c nilElt) (ks.elts.getD ((c - 1) / 2) nilElt)) →
    (∀ c, c < ks.elts.length → (c - 1) / 2 = i → 0 < i →
      ¬ lessE (ks.elts.getD c nilElt) (ks.elts.getD ((i - 1) / 2) nilElt)) →
    HeapProp (heapDownAuxF fuel ks i n).1.elts
  | 0, ks, i, n, hn, hfi, hA, _ => by
    show HeapProp ks.elts
    intro c hc0 hclen
    refine hA c hc0 hclen (fun hpar => ?_)
    omega
  | fuel + 1, ks, i, n, hn, hfi, hA, hB => by
    simp only [heapDownAuxF]
    by_cases hj1 : 2 * i + 1 < n
    · rw [if_pos hj1]
      by_cases hch : 2 * i + 2 < n ∧ lessE (ks.elts.getD (2 * i + 2) nilElt)
          (ks.elts.getD (2 * i + 1) nilElt)
      · rw [if_pos hch]
        have hsib : ∀ c, c < n → c ≠ 2 * i + 2 → (c - 1) / 2 = i → 0 < c →
            ¬ lessE (ks.elts.getD c nilElt) (ks.elts.getD (2 * i + 2) nilElt) := by
          intro c hcn hcj hpar hc0
          rw [show c = 2 * i + 1 from by omega]
          exact lessE_asymm hch.2
        by_cases hless : lessE (ks.elts.getD (2 * i + 2) nilElt)
            (ks.elts.getD i nilElt)
        · rw [if_pos hless]
          exact heapDownAuxF_heapProp fuel (kSwap ks i (2 * i + 2)) (2 * i + 2) n
            (by rw [kSwap_length]; exact hn) (by omega)
            (down_swap_invA hn hj1 (Or.inr rfl) hch.1 hA hB hsib hless)
            (down_swap_invB hn hj1 (Or.inr rfl) hch.1 hA)
        · rw [if_neg hless]
          exact down_stop_heapProp hn hA hsib hless
      · rw [if_neg hch]
        have hsib : ∀ c, c < n → c ≠ 2 * i + 1 → (c - 1) / 2 = i → 0 < c →
            ¬ lessE (ks.elts.getD c nilElt) (ks.elts.getD (2 * i + 1) nilElt) := by
          intro c hcn hcj hpar hc0
          rw [show c = 2 * i + 2 from by omega]
          exact fun hq => hch ⟨by omega, hq⟩
        by_cases hless : lessE (ks.elts.getD (2 * i + 1) nilElt)
            (ks.elts.getD i nilElt)
        · rw [if_pos hless]
          exact heapDownAuxF_heapProp fuel (kSwap ks i (2 * i + 1)) (2 * i + 1) n
            (by rw [kSwap_length]; exact hn) (by omega)
            (down_swap_invA hn hj1 (Or.inl rfl) hj1 hA hB hsib hless)
            (down_swap_invB hn hj1 (Or.inl rfl) hj1 hA)
        · rw [if_neg hless]
          exact down_stop_heapProp hn hA hsib hless
    · rw [if_neg hj1]
      show HeapProp ks.elts
      intro c hc0 hclen
      refine hA c hc0 hclen (fun hpar => ?_)
      omega

/-! heap.Fix and heap.Push: combined packages. -/

theorem heapFix_pres (ks : keys) (i : Nat) (hi : i < ks.elts.length)
    (hc : ConsistentKeys ks) :
    ConsistentKeys (heapFix ks i) ∧
    (heapFix ks i).elts.length = ks.elts.length ∧
    (∀ k, entryOf (heapFix ks i) k = entryOf ks k) ∧
    (∀ e, e ∈ (heapFix ks i).elts → e ∈ ks.elts) := by
  simp only [heapFix]
  have hd := heapDownAuxF_pres (ks.elts.length + 1) ks i ks.elts.length rfl hc
  by_cases hm : i < (heapDownAuxF (ks.elts.length + 1) ks i ks.elts.length).2
  · rw [if_pos hm]
    exact hd
  · rw [if_neg hm]
    have hu := heapUpF_pres (i + 1)
      (heapDownAuxF (ks.elts.length + 1) ks i ks.elts.length).1 i (by omega)
      (by rw [hd.2.1]; exact hi) hd.1
    refine ⟨hu.1, ?_, ?_, ?_⟩
    · rw [hu.2.1, hd.2.1]
    · intro k
      rw [hu.2.2.1 k, hd.2.2.1 k]
    · intro e he
      exact hd.2.2.2 e (hu.2.2.2 e he)

theorem heapFix_heapProp (ks : keys) (i : Nat) (hi : i < ks.elts.length)
    (hA : ∀ c, 0 < c → c < ks.elts.length → (c - 1) / 2 ≠ i →
      ¬ lessE (ks.elts.getD c nilElt) (ks.elts.getD ((c - 1) / 2) nilElt))
    (hB : ∀ c, c < ks.elts.length → (c - 1) / 2 = i → 0 < i →
      ¬ lessE (ks.elts.getD c nilElt) (ks.elts.getD ((i - 1) / 2) nilElt)) :
    HeapProp (heapFix ks i).elts := by
  simp only [heapFix]
  have hH := heapDownAuxF_heapProp (ks.elts.length + 1) ks i ks.elts.length rfl
    (by omega) hA hB
  by_cases hm : i < (heapDownAuxF (ks.elts.length + 1) ks i ks.elts.length).2
  · rw [if_pos hm]
    exact hH
  · rw [if_neg hm]
    have hge := heapDownAuxF_ge (ks.elts.length + 1) ks i ks.elts.length
    have hks : (heapDownAuxF (ks.elts.length + 1) ks i ks.elts.length).1 = ks :=
      hge.2 (by omega)
    rw [hks] at hH ⊢
    rw [heapUpF_noop (i + 1) ks i hi hH]
    exact hH

theorem heapPush_pres (ks : keys) (e : element) (hc : ConsistentKeys ks)
    (hnew : mlookup ks.m e.Key = none) :
    ConsistentKeys (heapPush ks e) ∧
    (heapPush ks e).elts.length = ks.elts.length + 1 ∧
    (∀ k, entryOf (heapPush ks e) k =
      if k = e.Key then some e else entryOf ks k) ∧
    (∀ y, y ∈ (heapPush ks e).elts → y = e ∨ y ∈ ks.elts) := by
  have hbase : ConsistentKeys
      ⟨mset ks.m e.Key ks.elts.length, ks.elts ++ [e]⟩ := by
    refine ⟨?_, ?_, ?_, ?_⟩
    · intro k p hp
      rw [mlookup_mset] at hp
      by_cases hk : k = e.Key
      · rw [if_pos hk] at hp
        cases hp
        refine ⟨by simp, ?_⟩
        rw [show (⟨mset ks.m e.Key ks.elts.length, ks.elts ++ [e]⟩ : keys).elts
            = ks.elts ++ [e] from rfl, getD_append_len, hk]
      · rw [if_neg hk] at hp
        obtain ⟨hp1, hp2⟩ := hc.c1 k p hp
        refine ⟨by simp; omega, ?_⟩
        rw [show (⟨mset ks.m e.Key ks.elts.length, ks.elts ++ [e]⟩ : keys).elts
            = ks.elts ++ [e] from rfl, getD_append_left _ _ _ _ hp1, hp2]
    · intro p hp
      simp only [List.length_append, List.length_cons, List.length_nil] at hp
      rw [show (⟨mset ks.m e.Key ks.elts.length, ks.elts ++ [e]⟩ : keys).elts
          = ks.elts ++ [e] from rfl]
      by_cases hpl : p = ks.elts.length
      · rw [hpl, getD_append_len, mlookup_mset, if_pos rfl]
      · have hplt : p < ks.elts.length := by omega
        rw [getD_append_left _ _ _ _ hplt, mlookup_mset]
        have h2 := hc.c2 p hplt
        have hk : ¬ ((ks.elts.getD p nilElt).Key = e.Key) := by
          intro h
          rw [h, hnew] at h2
          cases h2
        rw [if_neg hk]
        exact h2
    · exact nodup_mset _ _ hc.nodup
    · rw [show (⟨mset ks.m e.Key ks.elts.length, ks.elts ++ [e]⟩ : keys).elts
          = ks.elts ++ [e] from rfl,
        length_mset_absent _ ((mlookup_eq_none_iff _ _).1 hnew), hc.mlen]
      simp
  have hent : ∀ k, entryOf ⟨mset ks.m e.Key ks.elts.length, ks.elts ++ [e]⟩ k =
      if k = e.Key then some e else entryOf ks k := by
    intro k
    rw [entryOf_eq, entryOf_eq]
    simp only
    rw [mlookup_mset]
    by_cases hk : k = e.Key
    · rw [if_pos hk, if_pos hk]
      simp only [Option.map_some']
      rw [getD_append_len]
    · rw [if_neg hk, if_neg hk]
      cases hm : mlookup ks.m k with
      | none => rfl
      | some p =>
        obtain ⟨hp1, _⟩ := hc.c1 k p hm
        simp only [Option.map_some']
        rw [getD_append_left _ _ _ _ hp1]
  simp only [heapPush]
  have hup := heapUpF_pres (ks.elts.length + 1)
    ⟨mset ks.m e.Key ks.elts.length, ks.elts ++ [e]⟩ ks.elts.length
    (by omega) (by simp) hbase
  refine ⟨hup.1, ?_, ?_, ?_⟩
  · rw [hup.2.1]
    simp
  · intro k
    rw [hup.2.2.1 k]
    exact hent k
  · intro y hy
    have hy2 := hup.2.2.2 y hy
    rcases List.mem_append.1 hy2 with h | h
    · exact Or.inr h
    · exact Or.inl (by simpa using h)

theorem heapPush_heapProp (ks : keys) (e : element) (hH : HeapProp ks.elts) :
    HeapProp (heapPush ks e).elts := by
  simp only [heapPush]
  refine heapUpF_heapProp (ks.elts.length + 1) _ ks.elts.length (by omega)
    (by simp) ?_ ?_
  · intro c hc0 hclen hcne
    simp only [List.length_append, List.length_cons, List.length_nil] at hclen
    have hcl : c < ks.elts.length := by omega
    have hpl : (c - 1) / 2 < ks.elts.length := by
      have := parent_lt hc0
      omega
    show ¬ lessE ((ks.elts ++ [e]).getD c nilElt)
      ((ks.elts ++ [e]).getD ((c - 1) / 2) nilElt)
    rw [getD_append_left _ _ _ _ hcl, getD_append_left _ _ _ _ hpl]
    exact hH c hc0 hcl
  · intro c hc0 hclen hpar hj0
    exfalso
    simp only [List.length_append, List.length_cons, List.length_nil] at hclen
    omega

theorem heapProp_min {l : List element} (hH : HeapProp l) :
    ∀ c, c < l.length → (l.getD 0 nilElt).Count ≤ (l.getD c nilElt).Count := by
  intro c
  induction c using Nat.strong_induction_on with
  | _ c ih =>
    intro hc
    by_cases h0 : c = 0
    · rw [h0]
    · have hp := parent_lt (show 0 < c from by omega)
      have h1 := ih ((c - 1) / 2) hp (by omega)
      have h2 := count_le_of_not_lessE (hH c (by omega) hc)
      omega

/-! Helpers for the Insert branches. -/

theorem not_lessE_of_lt {b p : element} (h : p.Count < b.Count) : ¬ lessE b p := by
  unfold lessE
  omega

theorem set_slot_consistent {ks : keys} (hc : ConsistentKeys ks) {idx : Nat}
    (hidx : idx < ks.elts.length) (e : element)
    (hkey : e.Key = (ks.elts.getD idx nilElt).Key) :
    ConsistentKeys ⟨ks.m, ks.elts.set idx e⟩ := by
  refine ⟨?_, ?_, ?_, ?_⟩
  · show ∀ k p, mlookup ks.m k = some p →
      p < (ks.elts.set idx e).length ∧ ((ks.elts.set idx e).getD p nilElt).Key = k
    intro k p hp
    obtain ⟨hp1, hp2⟩ := hc.c1 k p hp
    refine ⟨by simpa using hp1, ?_⟩
    by_cases hpi : p = idx
    · rw [hpi, getD_set_self _ _ _ _ hidx, hkey, ← hpi, hp2]
    · rw [getD_set_ne _ _ _ _ _ (fun h => hpi h.symm), hp2]
  · show ∀ p, p < (ks.elts.set idx e).length →
      mlookup ks.m (((ks.elts.set idx e).getD p nilElt).Key) = some p
    intro p hp
    rw [List.length_set] at hp
    by_cases hpi : p = idx
    · rw [hpi, getD_set_self _ _ _ _ hidx, hkey]
      exact hc.c2 idx hidx
    · rw [getD_set_ne _ _ _ _ _ (fun h => hpi h.symm)]
      exact hc.c2 p hp
  · exact hc.nodup
  · show ks.m.length = (ks.elts.set idx e).length
    rw [List.length_set]
    exact hc.mlen

theorem set_slot_entryOf {ks : keys} (hc : ConsistentKeys ks) {idx : Nat}
    (hidx : idx < ks.elts.length) (e : element) (k : String) :
    entryOf ⟨ks.m, ks.elts.set idx e⟩ k =
      if k = (ks.elts.getD idx nilElt).Key then some e else entryOf ks k := by
  rw [entryOf_eq, entryOf_eq]
  show (mlookup ks.m k).map (fun i => (ks.elts.set idx e).getD i nilElt) =
    if k = (ks.elts.getD idx nilElt).Key then some e
    else (mlookup ks.m k).map (fun i => ks.elts.getD i nilElt)
  by_cases hk : k = (ks.elts.getD idx nilElt).Key
  · rw [if_pos hk, hk, hc.c2 idx hidx]
    simp only [Option.map_some']
    rw [getD_set_self _ _ _ _ hidx]
  · rw [if_neg hk]
    cases hlk : mlookup ks.m k with
    | none => rfl
    | some p =>
      obtain ⟨hp1, hp2⟩ := hc.c1 k p hlk
      have hpne : p ≠ idx := fun h => hk (by rw [← hp2, h])
      simp only [Option.map_some']
      rw [getD_set_ne _ _ _ _ _ (fun h => hpne h.symm)]

theorem grow_invA {ks : keys} (hheap : HeapProp ks.elts) {idx : Nat}
    (hidx : idx < ks.elts.length) {e : element}
    (hgrow : (ks.elts.getD idx nilElt).Count < e.Count) :
    ∀ c, 0 < c → c < (ks.elts.set idx e).length → (c - 1) / 2 ≠ idx →
      ¬ lessE ((ks.elts.set idx e).getD c nilElt)
        ((ks.elts.set idx e).getD ((c - 1) / 2) nilElt) := by
  intro c hc0 hclen hpar
  rw [List.length_set] at hclen
  by_cases hci : c = idx
  · have hi0 : 0 < idx := by omega
    rw [hci, getD_set_self _ _ _ _ hidx,
      getD_set_ne _ _ _ _ _ (by omega)]
    have hedge := hheap idx hi0 hidx
    have hple := count_le_of_not_lessE hedge
    exact not_lessE_of_lt (by omega)
  · rw [getD_set_ne _ _ _ _ _ (fun h => hci h.symm),
      getD_set_ne _ _ _ _ _ (fun h => hpar h.symm)]
    exact hheap c hc0 hclen

theorem grow_invB {ks : keys} (hheap : HeapProp ks.elts) {idx : Nat}
    (hidx : idx < ks.elts.length) (e : element) :
    ∀ c, c < (ks.elts.set idx e).length → (c - 1) / 2 = idx → 0 < idx →
      ¬ lessE ((ks.elts.set idx e).getD c nilElt)
        ((ks.elts.set idx e).getD ((idx - 1) / 2) nilElt) := by
  intro c hclen hpar hi0
  rw [List.length_set] at hclen
  have hc0 : 0 < c := by omega
  have hci : c ≠ idx := by omega
  have hpp : (idx - 1) / 2 ≠ idx := by omega
  rw [getD_set_ne _ _ _ _ _ (fun h => hci h.symm),
    getD_set_ne _ _ _ _ _ (fun h => hpp h.symm)]
  have h1 := hheap c hc0 hclen
  rw [hpar] at h1
  exact lessE_negtrans h1 (hheap idx hi0 hidx)

theorem evict_invA {ks : keys} (hheap : HeapProp ks.elts) (e : element) :
    ∀ c, 0 < c → c < (ks.elts.set 0 e).length → (c - 1) / 2 ≠ 0 →
      ¬ lessE ((ks.elts.set 0 e).getD c nilElt)
        ((ks.elts.set 0 e).getD ((c - 1) / 2) nilElt) := by
  intro c hc0 hclen hpar
  rw [List.length_set] at hclen
  rw [getD_set_ne _ _ _ _ _ (by omega), getD_set_ne _ _ _ _ _ (fun h => hpar h.symm)]
  exact hheap c hc0 hclen

theorem replace_min_consistent {ks : keys} (hc : ConsistentKeys ks)
    (h0 : 0 < ks.elts.length) {x : String} (hx : mlookup ks.m x = none)
    (e : element) (hek : e.Key = x) :
    ConsistentKeys ⟨mset (mdel ks.m (ks.elts.getD 0 nilElt).Key) x 0,
      ks.elts.set 0 e⟩ := by
  have hmin0 := hc.c2 0 h0
  refine ⟨?_, ?_, ?_, ?_⟩
  · show ∀ k p, mlookup (mset (mdel ks.m (ks.elts.getD 0 nilElt).Key) x 0) k
        = some p →
      p < (ks.elts.set 0 e).length ∧ ((ks.elts.set 0 e).getD p nilElt).Key = k
    intro k p hp
    rw [mlookup_mset] at hp
    by_cases hk : k = x
    · rw [if_pos hk] at hp
      cases hp
      refine ⟨by simpa using h0, ?_⟩
      rw [getD_set_self _ _ _ _ h0, hek, hk]
    · rw [if_neg hk, mlookup_mdel] at hp
      by_cases hkm : k = (ks.elts.getD 0 nilElt).Key
      · rw [if_pos hkm] at hp
        cases hp
      · rw [if_neg hkm] at hp
        obtain ⟨hp1, hp2⟩ := hc.c1 k p hp
        have hpne : p ≠ 0 := by
          intro h
          rw [h] at hp2
          exact hkm hp2.symm
        refine ⟨by simpa using hp1, ?_⟩
        rw [getD_set_ne _ _ _ _ _ (fun h => hpne h.symm), hp2]
  · show ∀ p, p < (ks.elts.set 0 e).length →
      mlookup (mset (mdel ks.m (ks.elts.getD 0 nilElt).Key) x 0)
        (((ks.elts.set 0 e).getD p nilElt).Key) = some p
    intro p hp
    rw [List.length_set] at hp
    by_cases hp0 : p = 0
    · rw [hp0, getD_set_self _ _ _ _ h0, hek, mlookup_mset, if_pos rfl]
    · rw [getD_set_ne _ _ _ _ _ (fun h => hp0 h.symm)]
      have h2 := hc.c2 p hp
      have hkx : (ks.elts.getD p nilElt).Key ≠ x := by
        intro h
        rw [h, hx] at h2
        cases h2
      have hkm : (ks.elts.getD p nilElt).Key ≠ (ks.elts.getD 0 nilElt).Key :=
        fun h => hp0 (cons_key_inj hc hp h0 h)
      rw [mlookup_mset, if_neg hkx, mlookup_mdel, if_neg hkm]
      exact h2
  · exact nodup_mset _ _ (nodup_mdel _ hc.nodup)
  · show (mset (mdel ks.m (ks.elts.getD 0 nilElt).Key) x 0).length
      = (ks.elts.set 0 e).length
    have hxd : x ∉ mkeys (mdel ks.m (ks.elts.getD 0 nilElt).Key) := by
      intro hmem
      exact (mlookup_eq_none_iff _ _).1 hx
        ((mkeys_mdel_sublist ks.m _).subset hmem)
    rw [List.length_set, length_mset_absent _ hxd,
      length_mdel_mem hc.nodup (mem_mkeys_of_mlookup hmin0)]
    exact hc.mlen

theorem replace_min_entryOf {ks : keys} (hc : ConsistentKeys ks)
    (h0 : 0 < ks.elts.length) {x : String} (hx : mlookup ks.m x = none)
    (e : element) (hek : e.Key = x) (k : String) :
    entryOf ⟨mset (mdel ks.m (ks.elts.getD 0 nilElt).Key) x 0,
        ks.elts.set 0 e⟩ k =
      if k = x then some e
      else if k = (ks.elts.getD 0 nilElt).Key then none
      else entryOf ks k := by
  rw [entryOf_eq, entryOf_eq]
  show (mlookup (mset (mdel ks.m (ks.elts.getD 0 nilElt).Key) x 0) k).map
      (fun i => (ks.elts.set 0 e).getD i nilElt) =
    if k = x then some e
    else if k = (ks.elts.getD 0 nilElt).Key then none
    else (mlookup ks.m k).map (fun i => ks.elts.getD i nilElt)
  rw [mlookup_mset]
  by_cases hk : k = x
  · rw [if_pos hk, if_pos hk]
    simp only [Option.map_some']
    rw [getD_set_self _ _ _ _ h0]
  · rw [if_neg hk, if_neg hk, mlookup_mdel]
    by_cases hkm : k = (ks.elts.getD 0 nilElt).Key
    · rw [if_pos hkm, if_pos hkm]
      rfl
    · rw [if_neg hkm, if_neg hkm]
      cases hlk : mlookup ks.m k with
      | none => rfl
      | some p =>
        obtain ⟨hp1, hp2⟩ := hc.c1 k p hlk
        have hpne : p ≠ 0 := fun h => hkm (by rw [← hp2, h])
        simp only [Option.map_some']
        rw [getD_set_ne _ _ _ _ _ (fun h => hpne h.symm)]

/-! Range of the hash reduction. -/

theorem reduce_lt {x n : Nat} (hn : 0 < n) : reduce x n < n := by
  unfold reduce
  have hx : x % 2 ^ 32 < 2 ^ 32 := Nat.mod_lt _ (by norm_num)
  by_cases hp : (x % 2 ^ 32) * n < 2 ^ 64
  · rw [Nat.mod_eq_of_lt hp]
    have hd : (x % 2 ^ 32) * n / 2 ^ 32 < 2 ^ 32 := by
      apply Nat.div_lt_of_lt_mul
      rw [show (2 : Nat) ^ 32 * 2 ^ 32 = 2 ^ 64 from by norm_num]
      exact hp
    rw [Nat.mod_eq_of_lt hd]
    apply Nat.div_lt_of_lt_mul
    exact mul_lt_mul_of_pos_right hx hn
  · have hn32 : 2 ^ 32 < n := by
      rcases Nat.lt_or_ge (2 ^ 32) n with h | h
      · exact h
      · exfalso
        refine hp ?_
        calc (x % 2 ^ 32) * n < 2 ^ 32 * n := mul_lt_mul_of_pos_right hx hn
          _ ≤ 2 ^ 32 * 2 ^ 32 := Nat.mul_le_mul_left _ h
          _ = 2 ^ 64 := by norm_num
    have hd : (x % 2 ^ 32) * n % 2 ^ 64 / 2 ^ 32 < 2 ^ 32 := by
      apply Nat.div_lt_of_lt_mul
      rw [show (2 : Nat) ^ 32 * 2 ^ 32 = 2 ^ 64 from by norm_num]
      exact Nat.mod_lt _ (by norm_num)
    rw [Nat.mod_eq_of_lt hd]
    omega

theorem reduce_formula {x n : Nat} (h : (x % 2 ^ 32) * n < 2 ^ 64) :
    reduce x n = (x % 2 ^ 32) * n / 2 ^ 32 := by
  unfold reduce
  rw [Nat.mod_eq_of_lt h]
  apply Nat.mod_eq_of_lt
  apply Nat.div_lt_of_lt_mul
  rw [show (2 : Nat) ^ 32 * 2 ^ 32 = 2 ^ 64 from by norm_num]
  exact h

/-! The invariant holds initially and is preserved by Insert. -/

theorem WF_new {n : Nat} (hn : 1 ≤ n) : WF n (NewStream n) := by
  refine ⟨hn, rfl, by simp [NewStream], by simp [NewStream],
    ⟨?_, ?_, ?_, ?_⟩, ?_, ?_, ?_, ?_, ?_⟩
  · intro k p hp
    simp [NewStream, mlookup] at hp
  · intro p hp
    simp [NewStream] at hp
  · simp [NewStream, mkeys]
  · simp [NewStream]
  · intro e he
    simp [NewStream] at he
  · intro a ha
    simp [NewStream] at ha
    omega
  · intro c hc0 hclen
    simp [NewStream] at hclen
  · intro _ a ha
    simp [NewStream] at ha
    omega
  · intro h a ha
    simp [NewStream] at h
    omega

theorem WF_set_fix {n : Nat} {s : Stream} (hw : WF n s) {idx : Nat}
    (hidx : idx < s.k.elts.length) (cnt err : Int)
    (hgrow : (s.k.elts.getD idx nilElt).Count < cnt)
    (hent : 1 ≤ cnt ∧ 0 ≤ err ∧ err ≤ cnt) :
    WF n { s with k := heapFix ⟨s.k.m,
      s.k.elts.set idx ⟨(s.k.elts.getD idx nilElt).Key, cnt, err⟩⟩ idx } := by
  have hcons1 := set_slot_consistent hw.hcons hidx
    ⟨(s.k.elts.getD idx nilElt).Key, cnt, err⟩ rfl
  have hidx1 : idx < (s.k.elts.set idx
      (⟨(s.k.elts.getD idx nilElt).Key, cnt, err⟩ : element)).length := by
    simpa using hidx
  have hfix := heapFix_pres
    ⟨s.k.m, s.k.elts.set idx ⟨(s.k.elts.getD idx nilElt).Key, cnt, err⟩⟩
    idx hidx1 hcons1
  have hheap1 := heapFix_heapProp
    ⟨s.k.m, s.k.elts.set idx ⟨(s.k.elts.getD idx nilElt).Key, cnt, err⟩⟩
    idx hidx1 (grow_invA hw.hheap hidx hgrow)
    (grow_invB hw.hheap hidx ⟨(s.k.elts.getD idx nilElt).Key, cnt, err⟩)
  have hlen1 : (heapFix
      ⟨s.k.m, s.k.elts.set idx ⟨(s.k.elts.getD idx nilElt).Key, cnt, err⟩⟩
      idx).elts.length = s.k.elts.length := by
    rw [hfix.2.1]
    simp
  have hmin : ∀ y, y ∈ s.k.elts → (s.k.elts.getD 0 nilElt).Count ≤ y.Count := by
    intro y hy
    obtain ⟨i, hi, hgd⟩ := mem_iff_getD nilElt hy
    rw [← hgd]
    exact heapProp_min hw.hheap i hi
  refine ⟨hw.hn, hw.hsn, hw.halen, ?_, hfix.1, ?_, hw.halphas, hheap1, ?_, ?_⟩
  · rw [hlen1]
    exact hw.hlen
  · intro y hy
    rcases mem_of_mem_set (hfix.2.2.2 y hy) with he | he
    · rw [he]
      exact hent
    · exact hw.hentries y he
  · intro hl
    rw [hlen1] at hl
    exact hw.hfree hl
  · intro hl a ha
    rw [hlen1] at hl
    have hlen0 : 0 < (heapFix
        ⟨s.k.m, s.k.elts.set idx ⟨(s.k.elts.getD idx nilElt).Key, cnt, err⟩⟩
        idx).elts.length := by
      rw [hlen1, hl]
      have := hw.hn
      omega
    have hhead := hfix.2.2.2 _ (getD_mem _ 0 nilElt hlen0)
    have hold := hw.hfull hl a ha
    have hidxmin := heapProp_min hw.hheap idx hidx
    show a ≤ ((heapFix
      ⟨s.k.m, s.k.elts.set idx ⟨(s.k.elts.getD idx nilElt).Key, cnt, err⟩⟩
      idx).elts.getD 0 nilElt).Count
    rcases mem_of_mem_set hhead with he | he
    · rw [he]
      show a ≤ cnt
      omega
    · have := hmin _ he
      omega

theorem WF_push {n : Nat} {s : Stream} (hw : WF n s) {x : String}
    (hx : mlookup s.k.m x = none) (hlt : s.k.elts.length < s.n)
    (cnt : Int) (hcnt : 1 ≤ cnt) :
    WF n { s with k := heapPush s.k ⟨x, cnt, 0⟩ } := by
  have hpush := heapPush_pres s.k ⟨x, cnt, 0⟩ hw.hcons hx
  have hlt2 : s.k.elts.length < n := by
    rw [← hw.hsn]
    exact hlt
  refine ⟨hw.hn, hw.hsn, hw.halen, ?_, hpush.1, ?_, hw.halphas,
    heapPush_heapProp s.k _ hw.hheap, ?_, ?_⟩
  · rw [hpush.2.1]
    omega
  · intro y hy
    rcases hpush.2.2.2 y hy with he | he
    · rw [he]
      exact ⟨hcnt, le_refl 0, by show (0 : Int) ≤ cnt; omega⟩
    · exact hw.hentries y he
  · intro hl a ha
    exact hw.hfree hlt2 a ha
  · intro hl a ha
    have h0 := hw.hfree hlt2 a ha
    have hlen0 : 0 < (heapPush s.k ⟨x, cnt, 0⟩).elts.length := by
      rw [hpush.2.1]
      omega
    have hhead := hpush.2.2.2 _ (getD_mem _ 0 nilElt hlen0)
    show a ≤ ((heapPush s.k ⟨x, cnt, 0⟩).elts.getD 0 nilElt).Count
    rcases hhead with he | he
    · rw [he]
      show a ≤ cnt
      omega
    · have := (hw.hentries _ he).1
      omega

theorem WF_filtered {n : Nat} {s : Stream} (hw : WF n s)
    (hful : s.k.elts.length = n) {xh : Nat} (hxh : xh < s.alphas.length)
    {cnt : Int} (hcnt : 1 ≤ cnt)
    (hflt : s.alphas.getD xh 0 + cnt < (s.k.elts.getD 0 nilElt).Count) :
    WF n { s with alphas := s.alphas.set xh (s.alphas.getD xh 0 + cnt) } := by
  have hmem : s.alphas.getD xh 0 ∈ s.alphas := getD_mem _ _ _ hxh
  have h0 := hw.halphas _ hmem
  refine ⟨hw.hn, hw.hsn, ?_, hw.hlen, hw.hcons, hw.hentries, ?_, hw.hheap,
    ?_, ?_⟩
  · show (s.alphas.set xh (s.alphas.getD xh 0 + cnt)).length = n * 6
    rw [List.length_set]
    exact hw.halen
  · intro a ha
    rcases mem_of_mem_set ha with he | he
    · omega
    · exact hw.halphas a he
  · intro hl
    exfalso
    have hl2 : s.k.elts.length < n := hl
    omega
  · intro hl a ha
    show a ≤ (s.k.elts.getD 0 nilElt).Count
    rcases mem_of_mem_set ha with he | he
    · omega
    · exact hw.hfull hful a he

theorem WF_evict {n : Nat} {s : Stream} (hw : WF n s)
    (hful : s.k.elts.length = n) {x : String} (hx : mlookup s.k.m x = none)
    {mk : Nat} (hmk : mk < s.alphas.length) (cnt err : Int)
    (hecount : (s.k.elts.getD 0 nilElt).Count ≤ cnt)
    (herr : 0 ≤ err ∧ err ≤ cnt) :
    WF n { s with
      k := heapFix ⟨mset (mdel s.k.m (s.k.elts.getD 0 nilElt).Key) x 0,
        s.k.elts.set 0 ⟨x, cnt, err⟩⟩ 0,
      alphas := s.alphas.set mk (s.k.elts.getD 0 nilElt).Count } := by
  have h0 : 0 < s.k.elts.length := by
    have := hw.hn
    omega
  have hminmem : s.k.elts.getD 0 nilElt ∈ s.k.elts := getD_mem _ _ _ h0
  have hminent := hw.hentries _ hminmem
  have hcons1 := replace_min_consistent hw.hcons h0 hx ⟨x, cnt, err⟩ rfl
  have h01 : (0 : Nat) < (s.k.elts.set 0 (⟨x, cnt, err⟩ : element)).length := by
    simpa using h0
  have hfix := heapFix_pres
    ⟨mset (mdel s.k.m (s.k.elts.getD 0 nilElt).Key) x 0,
      s.k.elts.set 0 ⟨x, cnt, err⟩⟩ 0 h01 hcons1
  have hheap1 := heapFix_heapProp
    ⟨mset (mdel s.k.m (s.k.elts.getD 0 nilElt).Key) x 0,
      s.k.elts.set 0 ⟨x, cnt, err⟩⟩ 0 h01
    (evict_invA hw.hheap ⟨x, cnt, err⟩)
    (fun c hclen hpar hh => absurd hh (lt_irrefl 0))
  have hlen1 : (heapFix
      ⟨mset (mdel s.k.m (s.k.elts.getD 0 nilElt).Key) x 0,
        s.k.elts.set 0 ⟨x, cnt, err⟩⟩ 0).elts.length = s.k.elts.length := by
    rw [hfix.2.1]
    simp
  have hmin : ∀ y, y ∈ s.k.elts → (s.k.elts.getD 0 nilElt).Count ≤ y.Count := by
    intro y hy
    obtain ⟨i, hi, hgd⟩ := mem_iff_getD nilElt hy
    rw [← hgd]
    exact heapProp_min hw.hheap i hi
  refine ⟨hw.hn, hw.hsn, ?_, ?_, hfix.1, ?_, ?_, hheap1, ?_, ?_⟩
  · show (s.alphas.set mk (s.k.elts.getD 0 nilElt).Count).length = n * 6
    rw [List.length_set]
    exact hw.halen
  · rw [hlen1]
    exact hw.hlen
  · intro y hy
    rcases mem_of_mem_set (hfix.2.2.2 y hy) with he | he
    · rw [he]
      refine ⟨by show 1 ≤ cnt; have := hminent.1; omega, herr.1, herr.2⟩
    · exact hw.hentries y he
  · intro a ha
    rcases mem_of_mem_set ha with he | he
    · have := hminent.1
      omega
    · exact hw.halphas a he
  · intro hl
    exfalso
    rw [hlen1, hful] at hl
    omega
  · intro hl a ha
    have hlen0 : 0 < (heapFix
        ⟨mset (mdel s.k.m (s.k.elts.getD 0 nilElt).Key) x 0,
          s.k.elts.set 0 ⟨x, cnt, err⟩⟩ 0).elts.length := by
      rw [hlen1]
      exact h0
    have hhead := hfix.2.2.2 _ (getD_mem _ 0 nilElt hlen0)
    have hale : a ≤ (s.k.elts.getD 0 nilElt).Count := by
      rcases mem_of_mem_set ha with he | he
      · omega
      · exact hw.hfull hful a he
    show a ≤ ((heapFix
      ⟨mset (mdel s.k.m (s.k.elts.getD 0 nilElt).Key) x 0,
        s.k.elts.set 0 ⟨x, cnt, err⟩⟩ 0).elts.getD 0 nilElt).Count
    rcases mem_of_mem_set hhead with he | he
    · rw [he]
      show a ≤ cnt
      omega
    · have := hmin _ he
      omega

theorem WF_insert {n : Nat} {s : Stream} (hash : String → Nat) (x : String)
    {c : Int} (hw : WF n s) (hc : 1 ≤ c) : WF n (Insert hash s x c).2 := by
  have halen0 : 0 < s.alphas.length := by
    rw [hw.halen]
    have := hw.hn
    omega
  have hxlt : reduce (hash x) s.alphas.length < s.alphas.length :=
    reduce_lt halen0
  cases hm : mlookup s.k.m x with
  | some idx =>
    simp only [Insert, hm]
    obtain ⟨hidx, hkey⟩ := hw.hcons.c1 x idx hm
    have hget := hw.hentries (s.k.elts.getD idx nilElt) (getD_mem _ _ _ hidx)
    exact WF_set_fix hw hidx _ _ (by omega) ⟨by omega, hget.2.1, by omega⟩
  | none =>
    simp only [Insert, hm]
    by_cases hlt : s.k.elts.length < s.n
    · rw [if_pos hlt]
      exact WF_push hw hm hlt _ hc
    · rw [if_neg hlt]
      have hful : s.k.elts.length = n := by
        have h1 := hw.hlen
        have h2 := hw.hsn
        omega
      by_cases hflt : s.alphas.getD (reduce (hash x) s.alphas.length) 0 + c <
          (s.k.elts.getD 0 nilElt).Count
      · rw [if_pos hflt]
        exact WF_filtered hw hful hxlt hc hflt
      · rw [if_neg hflt]
        have hmk : reduce (hash ((s.k.elts.getD 0 nilElt).Key))
            s.alphas.length < s.alphas.length := reduce_lt halen0
        have h0 : 0 < s.k.elts.length := by
          have := hw.hn
          omega
        have hminent := hw.hentries _ (getD_mem _ _ nilElt h0)
        have hxlt1 : reduce (hash x) s.alphas.length <
            (s.alphas.set (reduce (hash ((s.k.elts.getD 0 nilElt).Key))
              s.alphas.length) (s.k.elts.getD 0 nilElt).Count).length := by
          rw [List.length_set]
          exact hxlt
        have hh1 : 0 ≤ (s.alphas.set (reduce (hash ((s.k.elts.getD 0 nilElt).Key))
            s.alphas.length) (s.k.elts.getD 0 nilElt).Count).getD
            (reduce (hash x) s.alphas.length) 0 := by
          have hmem := getD_mem (s.alphas.set
            (reduce (hash ((s.k.elts.getD 0 nilElt).Key)) s.alphas.length)
            (s.k.elts.getD 0 nilElt).Count)
            (reduce (hash x) s.alphas.length) 0 hxlt1
          rcases mem_of_mem_set hmem with he | he
          · rw [he]
            have := hminent.1
            omega
          · exact hw.halphas _ he
        have hecount : (s.k.elts.getD 0 nilElt).Count ≤
            (s.alphas.set (reduce (hash ((s.k.elts.getD 0 nilElt).Key))
              s.alphas.length) (s.k.elts.getD 0 nilElt).Count).getD
              (reduce (hash x) s.alphas.length) 0 + c := by
          by_cases hxm : reduce (hash x) s.alphas.length =
              reduce (hash ((s.k.elts.getD 0 nilElt).Key)) s.alphas.length
          · rw [hxm, getD_set_self _ _ _ _ hmk]
            omega
          · rw [getD_set_ne _ _ _ _ _ (fun h => hxm h.symm)]
            omega
        exact WF_evict hw hful hm hmk _ _ hecount ⟨hh1, by omega⟩

theorem Reachable_WF {hash : String → Nat} {n : Nat} {s : Stream}
    (h : Reachable hash n s) : WF n s := by
  induction h with
  | base hn => exact WF_new hn
  | step s x c hr hc ih => exact WF_insert hash x ih hc

/-! Closed forms of Insert on each of its four branches. -/

theorem Insert_hit_eq (hash : String → Nat) (s : Stream) (x : String) (c : Int)
    {idx : Nat} (hm : mlookup s.k.m x = some idx) :
    Insert hash s x c =
      (⟨(s.k.elts.getD idx nilElt).Key, (s.k.elts.getD idx nilElt).Count + c,
         (s.k.elts.getD idx nilElt).Error⟩,
       { s with k := heapFix ⟨s.k.m, s.k.elts.set idx
          ⟨(s.k.elts.getD idx nilElt).Key, (s.k.elts.getD idx nilElt).Count + c,
            (s.k.elts.getD idx nilElt).Error⟩⟩ idx }) := by
  simp only [Insert, hm]

theorem Insert_free_eq (hash : String → Nat) (s : Stream) (x : String) (c : Int)
    (hm : mlookup s.k.m x = none) (hlt : s.k.elts.length < s.n) :
    Insert hash s x c =
      (⟨x, c, 0⟩, { s with k := heapPush s.k ⟨x, c, 0⟩ }) := by
  simp only [Insert, hm]
  rw [if_pos hlt]

theorem Insert_filtered_eq (hash : String → Nat) (s : Stream) (x : String)
    (c : Int) (hm : mlookup s.k.m x = none) (hge : ¬ (s.k.elts.length < s.n))
    (hflt : s.alphas.getD (reduce (hash x) s.alphas.length) 0 + c <
      (s.k.elts.getD 0 nilElt).Count) :
    Insert hash s x c =
      (⟨x, s.alphas.getD (reduce (hash x) s.alphas.length) 0 + c,
         s.alphas.getD (reduce (hash x) s.alphas.length) 0⟩,
       { s with
          alphas := s.alphas.set (reduce (hash x) s.alphas.length)
            (s.alphas.getD (reduce (hash x) s.alphas.length) 0 + c) }) := by
  simp only [Insert, hm]
  rw [if_neg hge, if_pos hflt]

theorem Insert_evict_eq (hash : String → Nat) (s : Stream) (x : String)
    (c : Int) (hm : mlookup s.k.m x = none) (hge : ¬ (s.k.elts.length < s.n))
    (hnf : ¬ (s.alphas.getD (reduce (hash x) s.alphas.length) 0 + c <
      (s.k.elts.getD 0 nilElt).Count)) :
    Insert hash s x c =
      (⟨x, (s.alphas.set (reduce (hash ((s.k.elts.getD 0 nilElt).Key))
              s.alphas.length) (s.k.elts.getD 0 nilElt).Count).getD
            (reduce (hash x) s.alphas.length) 0 + c,
          (s.alphas.set (reduce (hash ((s.k.elts.getD 0 nilElt).Key))
              s.alphas.length) (s.k.elts.getD 0 nilElt).Count).getD
            (reduce (hash x) s.alphas.length) 0⟩,
       { s with
          k := heapFix ⟨mset (mdel s.k.m (s.k.elts.getD 0 nilElt).Key) x 0,
            s.k.elts.set 0
              ⟨x, (s.alphas.set (reduce (hash ((s.k.elts.getD 0 nilElt).Key))
                    s.alphas.length) (s.k.elts.getD 0 nilElt).Count).getD
                  (reduce (hash x) s.alphas.length) 0 + c,
                (s.alphas.set (reduce (hash ((s.k.elts.getD 0 nilElt).Key))
                    s.alphas.length) (s.k.elts.getD 0 nilElt).Count).getD
                  (reduce (hash x) s.alphas.length) 0⟩⟩ 0,
          alphas := s.alphas.set (reduce (hash ((s.k.elts.getD 0 nilElt).Key))
            s.alphas.length) (s.k.elts.getD 0 nilElt).Count }) := by
  simp only [Insert, hm]
  rw [if_neg hge, if_neg hnf]

/-! Computing est before and after the operations. -/

theorem est_lookup_some {hash : String → Nat} {s : Stream} {x : String}
    {idx : Nat} (hm : mlookup s.k.m x = some idx) :
    est hash s x = (s.k.elts.getD idx nilElt).Count := by
  unfold est
  rw [hm]

theorem est_lookup_none {hash : String → Nat} {s : Stream} {x : String}
    (hm : mlookup s.k.m x = none) :
    est hash s x = s.alphas.getD (reduce (hash x) s.alphas.length) 0 := by
  unfold est
  rw [hm]

theorem est_entryOf (hash : String → Nat) (s : Stream) (x : String) :
    est hash s x = (match entryOf s.k x with
      | some e => e.Count
      | none => s.alphas.getD (reduce (hash x) s.alphas.length) 0) := by
  unfold est entryOf
  cases mlookup s.k.m x <;> rfl

theorem entryOf_none_iff (ks : keys) (x : String) :
    entryOf ks x = none ↔ mlookup ks.m x = none := by
  unfold entryOf
  cases mlookup ks.m x <;> simp

theorem fix_set_entryOf {ks : keys} (hc : ConsistentKeys ks) {idx : Nat}
    (hidx : idx < ks.elts.length) (e : element)
    (hkey : e.Key = (ks.elts.getD idx nilElt).Key) (k : String) :
    entryOf (heapFix ⟨ks.m, ks.elts.set idx e⟩ idx) k =
      if k = (ks.elts.getD idx nilElt).Key then some e else entryOf ks k := by
  have hcons1 := set_slot_consistent hc hidx e hkey
  have hidx1 : idx < (ks.elts.set idx e).length := by simpa using hidx
  have hfix := heapFix_pres ⟨ks.m, ks.elts.set idx e⟩ idx hidx1 hcons1
  rw [hfix.2.2.1 k, set_slot_entryOf hc hidx e k]

theorem push_entryOf {ks : keys} (hc : ConsistentKeys ks) (e : element)
    (hnew : mlookup ks.m e.Key = none) (k : String) :
    entryOf (heapPush ks e) k = if k = e.Key then some e else entryOf ks k :=
  (heapPush_pres ks e hc hnew).2.2.1 k

theorem evict_entryOf {ks : keys} (hc : ConsistentKeys ks)
    (h0 : 0 < ks.elts.length) {x : String} (hx : mlookup ks.m x = none)
    (e : element) (hek : e.Key = x) (k : String) :
    entryOf (heapFix ⟨mset (mdel ks.m (ks.elts.getD 0 nilElt).Key) x 0,
        ks.elts.set 0 e⟩ 0) k =
      if k = x then some e
      else if k = (ks.elts.getD 0 nilElt).Key then none
      else entryOf ks k := by
  have hcons1 := replace_min_consistent hc h0 hx e hek
  have h01 : (0 : Nat) < (ks.elts.set 0 e).length := by simpa using h0
  have hfix := heapFix_pres ⟨mset (mdel ks.m (ks.elts.getD 0 nilElt).Key) x 0,
    ks.elts.set 0 e⟩ 0 h01 hcons1
  rw [hfix.2.2.1 k, replace_min_entryOf hc h0 hx e hek k]

/-! The value of est after each kind of state change. -/

theorem est_hit_state (hash : String → Nat) {n : Nat} {s : Stream}
    (hw : WF n s) {idx : Nat} (hidx : idx < s.k.elts.length)
    (cnt err : Int) (x : String) :
    est hash { s with k := heapFix ⟨s.k.m, s.k.elts.set idx
        ⟨(s.k.elts.getD idx nilElt).Key, cnt, err⟩⟩ idx } x =
      if x = (s.k.elts.getD idx nilElt).Key then cnt else est hash s x := by
  rw [est_entryOf]
  show (match entryOf (heapFix ⟨s.k.m, s.k.elts.set idx
      ⟨(s.k.elts.getD idx nilElt).Key, cnt, err⟩⟩ idx) x with
    | some e => e.Count
    | none => s.alphas.getD (reduce (hash x) s.alphas.length) 0) = _
  rw [fix_set_entryOf hw.hcons hidx
    ⟨(s.k.elts.getD idx nilElt).Key, cnt, err⟩ rfl x]
  by_cases hk : x = (s.k.elts.getD idx nilElt).Key
  · rw [if_pos hk, if_pos hk]
  · rw [if_neg hk, if_neg hk, est_entryOf]

theorem est_push_state (hash : String → Nat) {n : Nat} {s : Stream}
    (hw : WF n s) {y : String} (hm : mlookup s.k.m y = none)
    (cnt : Int) (x : String) :
    est hash { s with k := heapPush s.k ⟨y, cnt, 0⟩ } x =
      if x = y then cnt else est hash s x := by
  rw [est_entryOf]
  show (match entryOf (heapPush s.k ⟨y, cnt, 0⟩) x with
    | some e => e.Count
    | none => s.alphas.getD (reduce (hash x) s.alphas.length) 0) = _
  rw [push_entryOf hw.hcons ⟨y, cnt, 0⟩ hm x]
  by_cases hk : x = y
  · rw [if_pos hk, if_pos hk]
  · rw [if_neg hk, if_neg hk, est_entryOf]

theorem est_filtered_state (hash : String → Nat) {s : Stream} {xh : Nat}
    (hxh : xh < s.alphas.length) (v : Int) (x : String) :
    est hash { s with alphas := s.alphas.set xh v } x =
      (match entryOf s.k x with
      | some e => e.Count
      | none =>
        if reduce (hash x) s.alphas.length = xh then v
        else s.alphas.getD (reduce (hash x) s.alphas.length) 0) := by
  rw [est_entryOf]
  show (match entryOf s.k x with
    | some e => e.Count
    | none => (s.alphas.set xh v).getD
        (reduce (hash x) (s.alphas.set xh v).length) 0) = _
  cases entryOf s.k x with
  | some e => rfl
  | none =>
    show (s.alphas.set xh v).getD (reduce (hash x) (s.alphas.set xh v).length) 0
      = _
    rw [List.length_set]
    by_cases hx : reduce (hash x) s.alphas.length = xh
    · rw [hx, if_pos rfl, getD_set_self _ _ _ _ hxh]
    · rw [if_neg hx, getD_set_ne _ _ _ _ _ (fun h => hx h.symm)]

theorem est_evict_state (hash : String → Nat) {n : Nat} {s : Stream}
    (hw : WF n s) (h0 : 0 < s.k.elts.length) {x0 : String}
    (hx0 : mlookup s.k.m x0 = none) (cnt err : Int) {mk : Nat}
    (hmk : mk < s.alphas.length) (x : String) :
    est hash { s with
        k := heapFix ⟨mset (mdel s.k.m (s.k.elts.getD 0 nilElt).Key) x0 0,
          s.k.elts.set 0 ⟨x0, cnt, err⟩⟩ 0,
        alphas := s.alphas.set mk (s.k.elts.getD 0 nilElt).Count } x =
      if x = x0 then cnt
      else if x = (s.k.elts.getD 0 nilElt).Key then
        (s.alphas.set mk (s.k.elts.getD 0 nilElt).Count).getD
          (reduce (hash x) s.alphas.length) 0
      else (match entryOf s.k x with
        | some e => e.Count
        | none => (s.alphas.set mk (s.k.elts.getD 0 nilElt).Count).getD
            (reduce (hash x) s.alphas.length) 0) := by
  rw [est_entryOf]
  show (match entryOf (heapFix
      ⟨mset (mdel s.k.m (s.k.elts.getD 0 nilElt).Key) x0 0,
        s.k.elts.set 0 ⟨x0, cnt, err⟩⟩ 0) x with
    | some e => e.Count
    | none => (s.alphas.set mk (s.k.elts.getD 0 nilElt).Count).getD
        (reduce (hash x)
          (s.alphas.set mk (s.k.elts.getD 0 nilElt).Count).length) 0) = _
  rw [evict_entryOf hw.hcons h0 hx0 ⟨x0, cnt, err⟩ rfl x, List.length_set]
  by_cases h1 : x = x0
  · simp only [if_pos h1]
  · simp only [if_neg h1]
    by_cases h2 : x = (s.k.elts.getD 0 nilElt).Key
    · simp only [if_pos h2]
    · simp only [if_neg h2]

/-! The returned Count is the new est of the key, and est never decreases. -/

theorem Insert_count_est {n : Nat} {s : Stream} (hash : String → Nat)
    (x : String) {c : Int} (hw : WF n s) (hc : 1 ≤ c) :
    (Insert hash s x c).1.Count = est hash (Insert hash s x c).2 x ∧
    est hash s x + c ≤ est hash (Insert hash s x c).2 x := by
  have halen0 : 0 < s.alphas.length := by
    rw [hw.halen]
    have := hw.hn
    omega
  have hxlt : reduce (hash x) s.alphas.length < s.alphas.length :=
    reduce_lt halen0
  cases hm : mlookup s.k.m x with
  | some idx =>
    obtain ⟨hidx, hkey⟩ := hw.hcons.c1 x idx hm
    rw [Insert_hit_eq hash s x c hm]
    rw [est_hit_state hash hw hidx ((s.k.elts.getD idx nilElt).Count + c)
      ((s.k.elts.getD idx nilElt).Error) x, if_pos hkey.symm,
      est_lookup_some hm]
    exact ⟨rfl, le_refl _⟩
  | none =>
    by_cases hlt : s.k.elts.length < s.n
    · rw [Insert_free_eq hash s x c hm hlt]
      rw [est_push_state hash hw hm c x, if_pos rfl, est_lookup_none hm]
      have h0 : s.alphas.getD (reduce (hash x) s.alphas.length) 0 = 0 :=
        hw.hfree (by rw [← hw.hsn]; exact hlt) _ (getD_mem _ _ _ hxlt)
      rw [h0]
      exact ⟨rfl, by omega⟩
    · by_cases hflt : s.alphas.getD (reduce (hash x) s.alphas.length) 0 + c <
          (s.k.elts.getD 0 nilElt).Count
      · rw [Insert_filtered_eq hash s x c hm hlt hflt]
        rw [est_filtered_state hash hxlt _ x,
          (entryOf_none_iff s.k x).2 hm, est_lookup_none hm]
        show _ ∧ s.alphas.getD (reduce (hash x) s.alphas.length) 0 + c ≤
          (if reduce (hash x) s.alphas.length = reduce (hash x) s.alphas.length
            then s.alphas.getD (reduce (hash x) s.alphas.length) 0 + c
            else s.alphas.getD (reduce (hash x) s.alphas.length) 0)
        rw [if_pos rfl]
        exact ⟨rfl, le_refl _⟩
      · rw [Insert_evict_eq hash s x c hm hlt hflt]
        have hful : s.k.elts.length = n := by
          have h1 := hw.hlen
          have h2 := hw.hsn
          omega
        have h0 : 0 < s.k.elts.length := by
          have := hw.hn
          omega
        have hmk : reduce (hash ((s.k.elts.getD 0 nilElt).Key))
            s.alphas.length < s.alphas.length := reduce_lt halen0
        rw [est_evict_state hash hw h0 hm _ _ hmk x, if_pos rfl,
          est_lookup_none hm]
        refine ⟨rfl, ?_⟩
        have hmono : s.alphas.getD (reduce (hash x) s.alphas.length) 0 ≤
            (s.alphas.set (reduce (hash ((s.k.elts.getD 0 nilElt).Key))
              s.alphas.length) (s.k.elts.getD 0 nilElt).Count).getD
              (reduce (hash x) s.alphas.length) 0 := by
          by_cases hxm : reduce (hash x) s.alphas.length =
              reduce (hash ((s.k.elts.getD 0 nilElt).Key)) s.alphas.length
          · rw [hxm, getD_set_self _ _ _ _ hmk]
            exact hw.hfull hful _ (getD_mem _ _ _ hmk)
          · rw [getD_set_ne _ _ _ _ _ (fun h => hxm h.symm)]
        omega

theorem est_mono_insert {n : Nat} {s : Stream} (hash : String → Nat)
    (x y : String) {c : Int} (hw : WF n s) (hc : 1 ≤ c) :
    est hash s x ≤ est hash (Insert hash s y c).2 x := by
  by_cases hxy : x = y
  · rw [hxy]
    have h := (Insert_count_est hash y hw hc).2
    omega
  have halen0 : 0 < s.alphas.length := by
    rw [hw.halen]
    have := hw.hn
    omega
  cases hm : mlookup s.k.m y with
  | some idx =>
    obtain ⟨hidx, hkey⟩ := hw.hcons.c1 y idx hm
    rw [Insert_hit_eq hash s y c hm]
    rw [est_hit_state hash hw hidx ((s.k.elts.getD idx nilElt).Count + c)
      ((s.k.elts.getD idx nilElt).Error) x,
      if_neg (by rw [hkey]; exact hxy)]
  | none =>
    by_cases hlt : s.k.elts.length < s.n
    · rw [Insert_free_eq hash s y c hm hlt]
      rw [est_push_state hash hw hm c x, if_neg hxy]
    · by_cases hflt : s.alphas.getD (reduce (hash y) s.alphas.length) 0 + c <
          (s.k.elts.getD 0 nilElt).Count
      · rw [Insert_filtered_eq hash s y c hm hlt hflt]
        have hylt : reduce (hash y) s.alphas.length < s.alphas.length :=
          reduce_lt halen0
        rw [est_filtered_state hash hylt _ x, est_entryOf]
        cases hE : entryOf s.k x with
        | some e => exact le_refl _
        | none =>
          show s.alphas.getD (reduce (hash x) s.alphas.length) 0 ≤
            (if reduce (hash x) s.alphas.length = reduce (hash y) s.alphas.length
              then s.alphas.getD (reduce (hash y) s.alphas.length) 0 + c
              else s.alphas.getD (reduce (hash x) s.alphas.length) 0)
          by_cases hxm : reduce (hash x) s.alphas.length =
              reduce (hash y) s.alphas.length
          · rw [if_pos hxm, hxm]
            omega
          · rw [if_neg hxm]
      · rw [Insert_evict_eq hash s y c hm hlt hflt]
        have hful : s.k.elts.length = n := by
          have h1 := hw.hlen
          have h2 := hw.hsn
          omega
        have h0 : 0 < s.k.elts.length := by
          have := hw.hn
          omega
        have hmk : reduce (hash ((s.k.elts.getD 0 nilElt).Key))
            s.alphas.length < s.alphas.length := reduce_lt halen0
        rw [est_evict_state hash hw h0 hm _ _ hmk x, if_neg hxy]
        by_cases hxmin : x = (s.k.elts.getD 0 nilElt).Key
        · rw [if_pos hxmin]
          have hm0 : mlookup s.k.m x = some 0 := by
            rw [hxmin]
            exact hw.hcons.c2 0 h0
          rw [est_lookup_some hm0]
          rw [show reduce (hash x) s.alphas.length =
            reduce (hash ((s.k.elts.getD 0 nilElt).Key)) s.alphas.length from by
              rw [hxmin]]
          rw [getD_set_self _ _ _ _ hmk]
        · rw [if_neg hxmin, est_entryOf]
          cases hE : entryOf s.k x with
          | some e => exact le_refl _
          | none =>
            show s.alphas.getD (reduce (hash x) s.alphas.length) 0 ≤
              (s.alphas.set (reduce (hash ((s.k.elts.getD 0 nilElt).Key))
                s.alphas.length) (s.k.elts.getD 0 nilElt).Count).getD
                (reduce (hash x) s.alphas.length) 0
            by_cases hxm : reduce (hash x) s.alphas.length =
                reduce (hash ((s.k.elts.getD 0 nilElt).Key)) s.alphas.length
            · rw [hxm, getD_set_self _ _ _ _ hmk]
              exact hw.hfull hful _ (getD_mem _ _ _ hmk)
            · rw [getD_set_ne _ _ _ _ _ (fun h => hxm h.symm)]

/-! Batches of Insert calls. -/

theorem run_WF {hash : String → Nat} {n : Nat} :
    ∀ (ops : List (String × Int)) {s : Stream}, WF n s →
      (∀ p ∈ ops, 1 ≤ p.2) → WF n (run hash s ops)
  | [], _, hw, _ => hw
  | p :: rest, s, hw, hpos => by
    rw [show run hash s (p :: rest) = run hash (Insert hash s p.1 p.2).2 rest
      from rfl]
    exact run_WF rest
      (WF_insert hash p.1 hw (hpos p (List.mem_cons_self p rest)))
      (fun q hq => hpos q (List.mem_cons_of_mem p hq))

theorem run_est_mono {hash : String → Nat} {n : Nat} :
    ∀ (ops : List (String × Int)) {s : Stream} (x : String), WF n s →
      (∀ p ∈ ops, 1 ≤ p.2) →
      est hash s x ≤ est hash (run hash s ops) x
  | [], _, _, _, _ => le_refl _
  | p :: rest, s, x, hw, hpos => by
    have h1 := est_mono_insert hash x p.1 hw (hpos p (List.mem_cons_self p rest))
    have h2 : est hash (Insert hash s p.1 p.2).2 x ≤
        est hash (run hash (Insert hash s p.1 p.2).2 rest) x :=
      run_est_mono rest x
        (WF_insert hash p.1 hw (hpos p (List.mem_cons_self p rest)))
        (fun q hq => hpos q (List.mem_cons_of_mem p hq))
    rw [show run hash s (p :: rest) = run hash (Insert hash s p.1 p.2).2 rest
      from rfl]
    omega

/-! Estimate on both kinds of key. -/

theorem Estimate_some_eq (hash : String → Nat) (s : Stream) (x : String)
    {idx : Nat} (hm : mlookup s.k.m x = some idx) :
    Estimate hash s x = ⟨(s.k.elts.getD idx nilElt).Key,
      (s.k.elts.getD idx nilElt).Count, (s.k.elts.getD idx nilElt).Error⟩ := by
  simp only [Estimate, hm]

theorem Estimate_none_eq (hash : String → Nat) (s : Stream) (x : String)
    (hm : mlookup s.k.m x = none) :
    Estimate hash s x = ⟨x, s.alphas.getD (reduce (hash x) s.alphas.length) 0,
      s.alphas.getD (reduce (hash x) s.alphas.length) 0⟩ := by
  simp only [Estimate, hm]

/-! Bounds on the Error and Count fields of returned Elements. -/

theorem Insert_elem_bounds {n : Nat} {s : Stream} (hash : String → Nat)
    (x : String) {c : Int} (hw : WF n s) (hc : 1 ≤ c) :
    0 ≤ (Insert hash s x c).1.Error ∧
    (Insert hash s x c).1.Error ≤ (Insert hash s x c).1.Count := by
  have halen0 : 0 < s.alphas.length := by
    rw [hw.halen]
    have := hw.hn
    omega
  have hxlt : reduce (hash x) s.alphas.length < s.alphas.length :=
    reduce_lt halen0
  cases hm : mlookup s.k.m x with
  | some idx =>
    obtain ⟨hidx, _⟩ := hw.hcons.c1 x idx hm
    have hget := hw.hentries (s.k.elts.getD idx nilElt) (getD_mem _ _ _ hidx)
    rw [Insert_hit_eq hash s x c hm]
    show 0 ≤ (s.k.elts.getD idx nilElt).Error ∧
      (s.k.elts.getD idx nilElt).Error ≤ (s.k.elts.getD idx nilElt).Count + c
    omega
  | none =>
    by_cases hlt : s.k.elts.length < s.n
    · rw [Insert_free_eq hash s x c hm hlt]
      show (0 : Int) ≤ 0 ∧ (0 : Int) ≤ c
      omega
    · have hcell := hw.halphas _ (getD_mem s.alphas _ 0 hxlt)
      by_cases hflt : s.alphas.getD (reduce (hash x) s.alphas.length) 0 + c <
          (s.k.elts.getD 0 nilElt).Count
      · rw [Insert_filtered_eq hash s x c hm hlt hflt]
        show 0 ≤ s.alphas.getD (reduce (hash x) s.alphas.length) 0 ∧
          s.alphas.getD (reduce (hash x) s.alphas.length) 0 ≤
            s.alphas.getD (reduce (hash x) s.alphas.length) 0 + c
        omega
      · rw [Insert_evict_eq hash s x c hm hlt hflt]
        have h0 : 0 < s.k.elts.length := by
          have h1 := hw.hsn
          have h2 := hw.hn
          omega
        have hminent := hw.hentries _ (getD_mem _ _ nilElt h0)
        have hmk : reduce (hash ((s.k.elts.getD 0 nilElt).Key))
            s.alphas.length < s.alphas.length := reduce_lt halen0
        have hxlt1 : reduce (hash x) s.alphas.length <
            (s.alphas.set (reduce (hash ((s.k.elts.getD 0 nilElt).Key))
              s.alphas.length) (s.k.elts.getD 0 nilElt).Count).length := by
          rw [List.length_set]
          exact hxlt
        have hcell1 : 0 ≤ (s.alphas.set
            (reduce (hash ((s.k.elts.getD 0 nilElt).Key)) s.alphas.length)
            (s.k.elts.getD 0 nilElt).Count).getD
            (reduce (hash x) s.alphas.length) 0 := by
          rcases mem_of_mem_set (getD_mem _ _ 0 hxlt1) with he | he
          · rw [he]
            have := hminent.1
            omega
          · exact hw.halphas _ he
        show 0 ≤ (s.alphas.set (reduce (hash ((s.k.elts.getD 0 nilElt).Key))
            s.alphas.length) (s.k.elts.getD 0 nilElt).Count).getD
            (reduce (hash x) s.alphas.length) 0 ∧ _
        refine ⟨hcell1, ?_⟩
        show (s.alphas.set (reduce (hash ((s.k.elts.getD 0 nilElt).Key))
            s.alphas.length) (s.k.elts.getD 0 nilElt).Count).getD
            (reduce (hash x) s.alphas.length) 0 ≤
          (s.alphas.set (reduce (hash ((s.k.elts.getD 0 nilElt).Key))
            s.alphas.length) (s.k.elts.getD 0 nilElt).Count).getD
            (reduce (hash x) s.alphas.length) 0 + c
        omega

theorem Estimate_elem_bounds {n : Nat} {s : Stream} (hash : String → Nat)
    (x : String) (hw : WF n s) :
    0 ≤ (Estimate hash s x).Error ∧
    (Estimate hash s x).Error ≤ (Estimate hash s x).Count := by
  have halen0 : 0 < s.alphas.length := by
    rw [hw.halen]
    have := hw.hn
    omega
  have hxlt : reduce (hash x) s.alphas.length < s.alphas.length :=
    reduce_lt halen0
  cases hm : mlookup s.k.m x with
  | some idx =>
    obtain ⟨hidx, _⟩ := hw.hcons.c1 x idx hm
    have hget := hw.hentries (s.k.elts.getD idx nilElt) (getD_mem _ _ _ hidx)
    rw [Estimate_some_eq hash s x hm]
    show 0 ≤ (s.k.elts.getD idx nilElt).Error ∧
      (s.k.elts.getD idx nilElt).Error ≤ (s.k.elts.getD idx nilElt).Count
    omega
  | none =>
    have hcell := hw.halphas _ (getD_mem s.alphas _ 0 hxlt)
    rw [Estimate_none_eq hash s x hm]
    show 0 ≤ s.alphas.getD (reduce (hash x) s.alphas.length) 0 ∧
      s.alphas.getD (reduce (hash x) s.alphas.length) 0 ≤
        s.alphas.getD (reduce (hash x) s.alphas.length) 0
    omega

/-! Error-table cells never decrease across an Insert on a valid state. -/

theorem Insert_alphas_mono {n : Nat} {s : Stream} (hash : String → Nat)
    (x : String) {c : Int} (hw : WF n s) (hc : 1 ≤ c) (i : Nat) :
    s.alphas.getD i 0 ≤ (Insert hash s x c).2.alphas.getD i 0 := by
  have halen0 : 0 < s.alphas.length := by
    rw [hw.halen]
    have := hw.hn
    omega
  have hxlt : reduce (hash x) s.alphas.length < s.alphas.length :=
    reduce_lt halen0
  cases hm : mlookup s.k.m x with
  | some idx =>
    rw [Insert_hit_eq hash s x c hm]
  | none =>
    by_cases hlt : s.k.elts.length < s.n
    · rw [Insert_free_eq hash s x c hm hlt]
    · by_cases hflt : s.alphas.getD (reduce (hash x) s.alphas.length) 0 + c <
          (s.k.elts.getD 0 nilElt).Count
      · rw [Insert_filtered_eq hash s x c hm hlt hflt]
        show s.alphas.getD i 0 ≤ (s.alphas.set (reduce (hash x) s.alphas.length)
          (s.alphas.getD (reduce (hash x) s.alphas.length) 0 + c)).getD i 0
        by_cases hix : i = reduce (hash x) s.alphas.length
        · rw [hix, getD_set_self _ _ _ _ hxlt]
          omega
        · rw [getD_set_ne _ _ _ _ _ (fun h => hix h.symm)]
      · rw [Insert_evict_eq hash s x c hm hlt hflt]
        have hful : s.k.elts.length = n := by
          have h1 := hw.hlen
          have h2 := hw.hsn
          omega
        have hmk : reduce (hash ((s.k.elts.getD 0 nilElt).Key))
            s.alphas.length < s.alphas.length := reduce_lt halen0
        show s.alphas.getD i 0 ≤ (s.alphas.set
          (reduce (hash ((s.k.elts.getD 0 nilElt).Key)) s.alphas.length)
          (s.k.elts.getD 0 nilElt).Count).getD i 0
        by_cases hix : i = reduce (hash ((s.k.elts.getD 0 nilElt).Key))
            s.alphas.length
        · rw [hix, getD_set_self _ _ _ _ hmk]
          exact hw.hfull hful _ (getD_mem _ _ _ (hix ▸ hmk))
        · rw [getD_set_ne _ _ _ _ _ (fun h => hix h.symm)]

/-! The order used by Keys is total and transitive. -/

instance : IsTotal Element sortLE := ⟨by
  intro a b
  by_cases h : lessCD b a
  · right
    intro h2
    unfold lessCD at h h2
    rcases h with hcl | ⟨hce, hkl⟩
    · rcases h2 with hdl | ⟨hde, hdk⟩
      · omega
      · omega
    · rcases h2 with hdl | ⟨hde, hdk⟩
      · omega
      · exact absurd hdk (lt_asymm hkl)
  · left
    exact h⟩

instance : IsTrans Element sortLE := ⟨by
  intro a b c hab hbc
  unfold sortLE lessCD at hab hbc ⊢
  push_neg at hab hbc ⊢
  obtain ⟨h1, h2⟩ := hab
  obtain ⟨h3, h4⟩ := hbc
  refine ⟨by omega, ?_⟩
  intro hce
  have hba : b.Count = a.Count := by omega
  have hcb : c.Count = b.Count := by omega
  exact le_trans (h2 hba) (h4 hcb)⟩

/-! The claims. -/

/-- C1: when the monitored set is full (size equal to the capacity) and the
inserted key x is unmonitored, if the error-table cell of x plus the count is
below the count of the minimum monitored entry (slot 0), then Insert does not
add x to the monitored set, leaves the monitored set (index map and heap
slice) unchanged, increases the cell of x by count (accumulating, not
overwriting) while all other cells are untouched, and returns the Element
(x, h + count, h). -/
theorem claim1_filtered_insert (hash : String → Nat) (s : Stream) (x : String)
    (c : Int) (halen0 : 0 < s.alphas.length)
    (hfull : s.k.elts.length = s.n) (hm : mlookup s.k.m x = none)
    (hflt : s.alphas.getD (reduce (hash x) s.alphas.length) 0 + c <
      (s.k.elts.getD 0 nilElt).Count) :
    (Insert hash s x c).1 =
      ⟨x, s.alphas.getD (reduce (hash x) s.alphas.length) 0 + c,
        s.alphas.getD (reduce (hash x) s.alphas.length) 0⟩ ∧
    (Insert hash s x c).2.k = s.k ∧
    (Insert hash s x c).2.alphas.getD (reduce (hash x) s.alphas.length) 0 =
      s.alphas.getD (reduce (hash x) s.alphas.length) 0 + c ∧
    (∀ i, i ≠ reduce (hash x) s.alphas.length →
      (Insert hash s x c).2.alphas.getD i 0 = s.alphas.getD i 0) := by
  have hge : ¬ (s.k.elts.length < s.n) := by omega
  rw [Insert_filtered_eq hash s x c hm hge hflt]
  refine ⟨rfl, rfl, ?_, ?_⟩
  · show (s.alphas.set (reduce (hash x) s.alphas.length)
      (s.alphas.getD (reduce (hash x) s.alphas.length) 0 + c)).getD
      (reduce (hash x) s.alphas.length) 0 =
      s.alphas.getD (reduce (hash x) s.alphas.length) 0 + c
    exact getD_set_self _ _ _ _ (reduce_lt halen0)
  · intro i hi
    show (s.alphas.set (reduce (hash x) s.alphas.length)
      (s.alphas.getD (reduce (hash x) s.alphas.length) 0 + c)).getD i 0 =
      s.alphas.getD i 0
    exact getD_set_ne _ _ _ _ _ (fun h => hi h.symm)

/-- Witness for C1 on a concrete execution: New 1, then Insert a 5 fills the
set, then Insert b 2 is filtered (0 + 2 below 5). -/
theorem claim1_witness :
    (Insert hash0 (Insert hash0 (NewStream 1) "a" 5).2 "b" 2).1 =
      ⟨"b", 2, 0⟩ ∧
    (Insert hash0 (Insert hash0 (NewStream 1) "a" 5).2 "b" 2).2.k =
      (Insert hash0 (NewStream 1) "a" 5).2.k := by
  have h := claim1_filtered_insert hash0 (Insert hash0 (NewStream 1) "a" 5).2
    "b" 2 (by decide) (by decide) (by decide) (by decide)
  exact ⟨h.1, h.2.1⟩

/-- C2 fails on the code: in the eviction case the archival is a plain
overwrite, not a max.  On a full estimator whose minimum entry has count 3
while the corresponding error-table cell already holds 10, inserting a
competitive key leaves the cell at 3, not max 10 3 = 10: the cell decreases
during archival. -/
theorem claim2_counterexample :
    mlookup (⟨1, ⟨[("a", 0)], [⟨"a", 3, 0⟩]⟩,
        [10, 0, 0, 0, 0, 0]⟩ : Stream).k.m "b" = none ∧
    (⟨1, ⟨[("a", 0)], [⟨"a", 3, 0⟩]⟩,
        [10, 0, 0, 0, 0, 0]⟩ : Stream).k.elts.length =
      (⟨1, ⟨[("a", 0)], [⟨"a", 3, 0⟩]⟩, [10, 0, 0, 0, 0, 0]⟩ : Stream).n ∧
    ¬ ((⟨1, ⟨[("a", 0)], [⟨"a", 3, 0⟩]⟩,
        [10, 0, 0, 0, 0, 0]⟩ : Stream).alphas.getD 0 0 + 1 <
      ((⟨1, ⟨[("a", 0)], [⟨"a", 3, 0⟩]⟩,
        [10, 0, 0, 0, 0, 0]⟩ : Stream).k.elts.getD 0 nilElt).Count) ∧
    (Insert hash0 (⟨1, ⟨[("a", 0)], [⟨"a", 3, 0⟩]⟩,
        [10, 0, 0, 0, 0, 0]⟩ : Stream) "b" 1).2.alphas.getD 0 0 ≠
      max ((⟨1, ⟨[("a", 0)], [⟨"a", 3, 0⟩]⟩,
          [10, 0, 0, 0, 0, 0]⟩ : Stream).alphas.getD 0 0)
        (((⟨1, ⟨[("a", 0)], [⟨"a", 3, 0⟩]⟩,
          [10, 0, 0, 0, 0, 0]⟩ : Stream).k.elts.getD 0 nilElt).Count) := by
  decide

/-- C2 amended: whenever Insert evicts the current minimum monitored entry,
the evicted key cell is overwritten with the evicted count: after the
eviction, table at hashIndex of the evicted key equals the evicted count
regardless of the prior cell value (so a prior value larger than the evicted
count is lost and the cell decreases; on states reachable by the documented
usage the prior value never exceeds the evicted count, see C3). -/
theorem claim2_archival_overwrite (hash : String → Nat) (s : Stream)
    (x : String) (c : Int) (halen0 : 0 < s.alphas.length)
    (hm : mlookup s.k.m x = none) (hge : ¬ (s.k.elts.length < s.n))
    (hnf : ¬ (s.alphas.getD (reduce (hash x) s.alphas.length) 0 + c <
      (s.k.elts.getD 0 nilElt).Count)) :
    (Insert hash s x c).2.alphas.getD
        (reduce (hash ((s.k.elts.getD 0 nilElt).Key)) s.alphas.length) 0 =
      (s.k.elts.getD 0 nilElt).Count := by
  rw [Insert_evict_eq hash s x c hm hge hnf]
  show (s.alphas.set (reduce (hash ((s.k.elts.getD 0 nilElt).Key))
      s.alphas.length) (s.k.elts.getD 0 nilElt).Count).getD
      (reduce (hash ((s.k.elts.getD 0 nilElt).Key)) s.alphas.length) 0 =
    (s.k.elts.getD 0 nilElt).Count
  exact getD_set_self _ _ _ _ (reduce_lt halen0)

/-- Witness for the amended C2 on the counterexample state. -/
theorem claim2_witness :
    (Insert hash0 (⟨1, ⟨[("a", 0)], [⟨"a", 3, 0⟩]⟩,
        [10, 0, 0, 0, 0, 0]⟩ : Stream) "b" 1).2.alphas.getD
      (reduce (hash0 (((⟨1, ⟨[("a", 0)], [⟨"a", 3, 0⟩]⟩,
        [10, 0, 0, 0, 0, 0]⟩ : Stream).k.elts.getD 0 nilElt).Key))
        (⟨1, ⟨[("a", 0)], [⟨"a", 3, 0⟩]⟩,
          [10, 0, 0, 0, 0, 0]⟩ : Stream).alphas.length) 0 =
    ((⟨1, ⟨[("a", 0)], [⟨"a", 3, 0⟩]⟩,
      [10, 0, 0, 0, 0, 0]⟩ : Stream).k.elts.getD 0 nilElt).Count :=
  claim2_archival_overwrite hash0 _ "b" 1 (by decide) (by decide) (by decide)
    (by decide)

/-- C3: on every reachable estimator state, a single Insert with positive
count never decreases any error-table cell.  This holds despite the plain
overwrite during archival, because on reachable states every cell is at most
the minimum monitored count, which is exactly the archived value. -/
theorem claim3_alphas_monotone {hash : String → Nat} {n : Nat} {s : Stream}
    (hr : Reachable hash n s) (x : String) {c : Int} (hc : 1 ≤ c) (i : Nat) :
    s.alphas.getD i 0 ≤ (Insert hash s x c).2.alphas.getD i 0 :=
  Insert_alphas_mono hash x (Reachable_WF hr) hc i

/-- Witness for C3 on a concrete reachable state whose next Insert evicts
(the touched cell goes from 3 to 5). -/
theorem claim3_witness :
    (Insert hash0 (Insert hash0 (NewStream 1) "a" 5).2
        "b" 3).2.alphas.getD 0 0 ≤
      (Insert hash0 (Insert hash0 (Insert hash0 (NewStream 1) "a" 5).2
        "b" 3).2 "b" 2).2.alphas.getD 0 0 :=
  claim3_alphas_monotone
    (Reachable.step _ "b" 3
      (Reachable.step _ "a" 5 (Reachable.base (by decide)) (by decide))
      (by decide))
    "b" (by decide) 0

/-- C4 fails on the code: in the eviction branch the cell of x is read after
the evicted count has been archived, so when x hashes to the same cell as the
evicted key the returned Element does not carry the start-of-call value h.
Concrete reachable run: New 1; Insert a 5; Insert b 3 (filtered, cell 0
becomes 3); Insert b 2 evicts and returns (b, 7, 5), not (b, 3 + 2, 3). -/
theorem claim4_counterexample :
    mlookup (Insert hash0 (Insert hash0 (NewStream 1) "a" 5).2
        "b" 3).2.k.m "b" = none ∧
    (Insert hash0 (Insert hash0 (NewStream 1) "a" 5).2
        "b" 3).2.k.elts.length =
      (Insert hash0 (Insert hash0 (NewStream 1) "a" 5).2 "b" 3).2.n ∧
    ¬ ((Insert hash0 (Insert hash0 (NewStream 1) "a" 5).2
          "b" 3).2.alphas.getD 0 0 + 2 <
        ((Insert hash0 (Insert hash0 (NewStream 1) "a" 5).2
          "b" 3).2.k.elts.getD 0 nilElt).Count) ∧
    (Insert hash0 (Insert hash0 (Insert hash0 (NewStream 1) "a" 5).2
        "b" 3).2 "b" 2).1 ≠
      ⟨"b", (Insert hash0 (Insert hash0 (NewStream 1) "a" 5).2
          "b" 3).2.alphas.getD 0 0 + 2,
        (Insert hash0 (Insert hash0 (NewStream 1) "a" 5).2
          "b" 3).2.alphas.getD 0 0⟩ := by
  decide

/-- C4 amended: in the eviction case the replacement entry and the returned
Element carry count h1 + count and error h1, where h1 is the cell of x read
after the evicted minimum count has been archived; whenever x hashes to a
cell different from that of the evicted key, h1 equals the start-of-call
value of the cell of x. -/
theorem claim4_eviction_returns (hash : String → Nat) (s : Stream)
    (x : String) (c : Int) (hm : mlookup s.k.m x = none)
    (hge : ¬ (s.k.elts.length < s.n))
    (hnf : ¬ (s.alphas.getD (reduce (hash x) s.alphas.length) 0 + c <
      (s.k.elts.getD 0 nilElt).Count)) :
    (Insert hash s x c).1 =
      ⟨x, (s.alphas.set (reduce (hash ((s.k.elts.getD 0 nilElt).Key))
            s.alphas.length) (s.k.elts.getD 0 nilElt).Count).getD
          (reduce (hash x) s.alphas.length) 0 + c,
        (s.alphas.set (reduce (hash ((s.k.elts.getD 0 nilElt).Key))
            s.alphas.length) (s.k.elts.getD 0 nilElt).Count).getD
          (reduce (hash x) s.alphas.length) 0⟩ ∧
    (reduce (hash x) s.alphas.length ≠
        reduce (hash ((s.k.elts.getD 0 nilElt).Key)) s.alphas.length →
      (s.alphas.set (reduce (hash ((s.k.elts.getD 0 nilElt).Key))
          s.alphas.length) (s.k.elts.getD 0 nilElt).Count).getD
        (reduce (hash x) s.alphas.length) 0 =
      s.alphas.getD (reduce (hash x) s.alphas.length) 0) := by
  rw [Insert_evict_eq hash s x c hm hge hnf]
  refine ⟨rfl, ?_⟩
  intro hne
  exact getD_set_ne _ _ _ _ _ (fun h => hne h.symm)

/-- Witness for the amended C4 on the same reachable run as the
counterexample. -/
theorem claim4_witness :
    (Insert hash0 (Insert hash0 (Insert hash0 (NewStream 1) "a" 5).2
        "b" 3).2 "b" 2).1 = ⟨"b", 7, 5⟩ := by
  have h := claim4_eviction_returns hash0
    (Insert hash0 (Insert hash0 (NewStream 1) "a" 5).2 "b" 3).2 "b" 2
    (by decide) (by decide) (by decide)
  exact h.1

/-- C5 fails on the code: New performs no capacity validation and returns
normally on capacity 0, so construction does not fail for every
non-positive capacity. -/
theorem claim5_counterexample :
    (0 : Int) ≤ 0 ∧ (New 0).isSome = true := by
  decide

/-- C5 amended: construction succeeds exactly for non-negative capacities:
for negative n the error-table allocation panics (modelled as none), while
New 0 returns normally, yielding a zero-capacity estimator rather than a
construction error. -/
theorem claim5_new_validation : ∀ n : Int, (New n).isSome = true ↔ 0 ≤ n := by
  intro n
  simp only [New]
  by_cases hn : n < 0
  · rw [if_pos hn]
    simp
    omega
  · rw [if_neg hn]
    simp
    omega

/-- C6: on every state reachable from New n by Insert calls with positive
counts, neither the heap slice nor the key index ever holds more than n
entries. -/
theorem claim6_capacity_bound {hash : String → Nat} {n : Nat} {s : Stream}
    (hr : Reachable hash n s) :
    s.k.elts.length ≤ n ∧ s.k.m.length ≤ n := by
  have hw := Reachable_WF hr
  have h1 := hw.hcons.mlen
  have h2 := hw.hlen
  omega

/-- Witness for C6 after three Inserts into a capacity-1 estimator. -/
theorem claim6_witness :
    (Insert hash0 (Insert hash0 (Insert hash0 (NewStream 1) "a" 5).2
        "b" 3).2 "b" 2).2.k.elts.length ≤ 1 ∧
    (Insert hash0 (Insert hash0 (Insert hash0 (NewStream 1) "a" 5).2
        "b" 3).2 "b" 2).2.k.m.length ≤ 1 :=
  claim6_capacity_bound
    (Reachable.step _ "b" 2
      (Reachable.step _ "b" 3
        (Reachable.step _ "a" 5 (Reachable.base (by decide)) (by decide))
        (by decide))
      (by decide))

/-- C7: starting from any reachable state, the Count returned by an
Insert of key x is never larger than the Count returned by a later Insert of
x, with any batch of positive-count Inserts of arbitrary keys in between. -/
theorem claim7_monotonic_counts {hash : String → Nat} {n : Nat} {s : Stream}
    (hr : Reachable hash n s) (x : String) {c1 c2 : Int}
    (hc1 : 1 ≤ c1) (hc2 : 1 ≤ c2) (ops : List (String × Int))
    (hops : ∀ p ∈ ops, 1 ≤ p.2) :
    (Insert hash s x c1).1.Count ≤
      (Insert hash (run hash (Insert hash s x c1).2 ops) x c2).1.Count := by
  have hw := Reachable_WF hr
  have h1 := Insert_count_est hash x hw hc1
  have hw1 := WF_insert hash x hw hc1
  have h2 : est hash (Insert hash s x c1).2 x ≤
      est hash (run hash (Insert hash s x c1).2 ops) x :=
    run_est_mono ops x hw1 hops
  have hw2 : WF n (run hash (Insert hash s x c1).2 ops) :=
    run_WF ops hw1 hops
  have h3 := Insert_count_est hash x hw2 hc2
  omega

/-- Witness for C7: the count of a returned for the first Insert (5) is at
most the count returned when a is inserted again after an unrelated
Insert (7). -/
theorem claim7_witness :
    (Insert hash0 (NewStream 1) "a" 5).1.Count ≤
      (Insert hash0 (run hash0 (Insert hash0 (NewStream 1) "a" 5).2
        [("b", 3)]) "a" 2).1.Count :=
  claim7_monotonic_counts (Reachable.base (by decide)) "a" (by decide)
    (by decide) [("b", 3)] (by decide)

/-- C8: Keys returns exactly the monitored entries (as a permutation of
their conversion), sorted by Count descending with ties broken by Key
ascending; the Go method sorts a copy of the slice, which the pure embedding
reflects by leaving the estimator state untouched. -/
theorem claim8_keys_sorted (s : Stream) :
    List.Sorted sortLE s.Keys ∧
    s.Keys.Perm (s.k.elts.map fun e => (⟨e.Key, e.Count, e.Error⟩ : Element)) :=
  ⟨List.sorted_insertionSort sortLE _, List.perm_insertionSort sortLE _⟩

/-- C9 fails on the code for huge tables: the 64-bit product wraps, so for
capacity 2 to the 31 (table size 6 times 2 to the 31, above 2 to the 32) the
returned index differs from the untruncated formula. -/
theorem claim9_counterexample :
    (1 : Nat) ≤ 2 ^ 31 ∧
    reduce (2 ^ 32 - 1) (6 * 2 ^ 31) ≠
      (2 ^ 32 - 1) % 2 ^ 32 * (6 * 2 ^ 31) / 2 ^ 32 := by
  decide

/-- C9 amended: for every capacity n at least 1 and every 64-bit hash, the
reduction returns an index within the 6n-entry table (also in the wraparound
case), and it equals the multiply-high-bits formula
low32 times 6n divided by 2 to the 32 whenever that product fits in 64 bits
(in particular for every table small enough that 6n times the maximal low32
stays below 2 to the 64). -/
theorem claim9_reduce_range {x n : Nat} (hn : 0 < n) :
    reduce x (6 * n) < 6 * n ∧
    (x % 2 ^ 32 * (6 * n) < 2 ^ 64 →
      reduce x (6 * n) = x % 2 ^ 32 * (6 * n) / 2 ^ 32) :=
  ⟨reduce_lt (by omega), fun h => reduce_formula h⟩

/-- Witness for the amended C9 at capacity 1 and hash 5. -/
theorem claim9_witness :
    0 < 1 ∧ (reduce 5 (6 * 1) < 6 * 1 ∧
      (5 % 2 ^ 32 * (6 * 1) < 2 ^ 64 →
        reduce 5 (6 * 1) = 5 % 2 ^ 32 * (6 * 1) / 2 ^ 32)) :=
  ⟨by decide, claim9_reduce_range (by decide)⟩

/-- C10: on every reachable estimator, every monitored entry satisfies
0 at most Error at most Count, and every Element returned by Insert (with
positive count) or Estimate satisfies 0 at most Error at most Count. -/
theorem claim10_error_le_count {hash : String → Nat} {n : Nat} {s : Stream}
    (hr : Reachable hash n s) :
    (∀ e ∈ s.k.elts, 0 ≤ e.Error ∧ e.Error ≤ e.Count) ∧
    (∀ x c, 1 ≤ c → 0 ≤ (Insert hash s x c).1.Error ∧
      (Insert hash s x c).1.Error ≤ (Insert hash s x c).1.Count) ∧
    (∀ x, 0 ≤ (Estimate hash s x).Error ∧
      (Estimate hash s x).Error ≤ (Estimate hash s x).Count) := by
  have hw := Reachable_WF hr
  refine ⟨fun e he => ⟨(hw.hentries e he).2.1, (hw.hentries e he).2.2⟩, ?_, ?_⟩
  · intro x c hc
    exact Insert_elem_bounds hash x hw hc
  · intro x
    exact Estimate_elem_bounds hash x hw

/-- Witness for C10 on a concrete reachable state, including one Insert
return and one Estimate return. -/
theorem claim10_witness :
    (∀ e ∈ (Insert hash0 (Insert hash0 (NewStream 1) "a" 5).2
        "b" 3).2.k.elts, 0 ≤ e.Error ∧ e.Error ≤ e.Count) ∧
    (0 ≤ (Insert hash0 (Insert hash0 (Insert hash0 (NewStream 1) "a" 5).2
        "b" 3).2 "b" 2).1.Error ∧
      (Insert hash0 (Insert hash0 (Insert hash0 (NewStream 1) "a" 5).2
        "b" 3).2 "b" 2).1.Error ≤
      (Insert hash0 (Insert hash0 (Insert hash0 (NewStream 1) "a" 5).2
        "b" 3).2 "b" 2).1.Count) ∧
    (0 ≤ (Estimate hash0 (Insert hash0 (Insert hash0 (NewStream 1) "a" 5).2
        "b" 3).2 "z").Error ∧
      (Estimate hash0 (Insert hash0 (Insert hash0 (NewStream 1) "a" 5).2
        "b" 3).2 "z").Error ≤
      (Estimate hash0 (Insert hash0 (Insert hash0 (NewStream 1) "a" 5).2
        "b" 3).2 "z").Count) := by
  have hr : Reachable hash0 1
      (Insert hash0 (Insert hash0 (NewStream 1) "a" 5).2 "b" 3).2 :=
    Reachable.step _ "b" 3
      (Reachable.step _ "a" 5 (Reachable.base (by decide)) (by decide))
      (by decide)
  have h := claim10_error_le_count hr
  exact ⟨h.1, h.2.1 "b" (2 : Int) (by decide), h.2.2 "z"⟩

end topk
